import Mathlib

/-!
Verification of the finger-training dosing core (`src/App.js`).

The definitions below are a shallow embedding of the model functions of
`src/App.js` (lines 89-262): the three-exponential fatigue curve `fAt`,
the recovery fraction `recoveryFrac`, the monotone log-space ratio
interpolator `ratioLoadForT` (duplicate aggregation, pool-adjacent-violators
pooling, edge clamps, log-linear interior interpolation), the mean-ratio
scale estimator `scaleFromHistory`, and the multi-set capacity-simulation
planner `planSets`.  JavaScript numbers are modelled as real numbers;
`Math.max/Math.min` become `max`/`min`, and the source's epsilon guards
(`1e-9`) are kept literally.
-/

open Classical

noncomputable section

namespace FingerTraining

/-- `const eps = 1e-9` from the source. -/
def eps : ℝ := 1e-9

/-- `clamp(x, lo, hi) = Math.max(lo, Math.min(hi, x))`. -/
def clamp (x lo hi : ℝ) : ℝ := max lo (min hi x)

/-- The `{w1, w2, w3}` weight record of the source. -/
structure Weights where
  w1 : ℝ
  w2 : ℝ
  w3 : ℝ

/-- The `{t1, t2, t3}` time-constant record of the source. -/
structure Taus where
  t1 : ℝ
  t2 : ℝ
  t3 : ℝ

/-- `normalizeWeights(w1, w2, w3)`: divide by the sum, floored at `1e-9`. -/
def normalizeWeights (w : Weights) : Weights :=
  ⟨w.w1 / max 1e-9 (w.w1 + w.w2 + w.w3),
   w.w2 / max 1e-9 (w.w1 + w.w2 + w.w3),
   w.w3 / max 1e-9 (w.w1 + w.w2 + w.w3)⟩

/-- `fAt(t, w, tau)`: normalized three-exponential remaining-capacity
fraction, with each `tau` floored at `1e-9`. -/
def fAt (t : ℝ) (w : Weights) (tau : Taus) : ℝ :=
  (normalizeWeights w).w1 * Real.exp (-t / max 1e-9 tau.t1) +
  (normalizeWeights w).w2 * Real.exp (-t / max 1e-9 tau.t2) +
  (normalizeWeights w).w3 * Real.exp (-t / max 1e-9 tau.t3)

/-- `recoveryFrac(t, tau)`: unweighted average of the three complementary
exponentials, reusing the fatigue taus. -/
def recoveryFrac (t : ℝ) (tau : Taus) : ℝ :=
  ((1 - Real.exp (-t / max 1e-9 tau.t1)) +
   (1 - Real.exp (-t / max 1e-9 tau.t2)) +
   (1 - Real.exp (-t / max 1e-9 tau.t3))) / 3

/-! ### Ratio estimator (`ratioLoadForT`) -/

/-- The `t <= 0 || L <= 0` filter of the aggregation loop in
`ratioLoadForT` (invalid points are skipped). -/
def validFilter : List (ℝ × ℝ) → List (ℝ × ℝ)
  | [] => []
  | p :: rest => if 0 < p.1 ∧ 0 < p.2 then p :: validFilter rest else validFilter rest

/-- One step of the duplicate-duration aggregation `Map`: entries are
`(t, loadSum, count)`, updated in insertion order. -/
def addPt (t L : ℝ) : List (ℝ × ℝ × ℝ) → List (ℝ × ℝ × ℝ)
  | [] => [(t, L, 1)]
  | q :: rest => if t = q.1 then (q.1, q.2.1 + L, q.2.2 + 1) :: rest
                 else q :: addPt t L rest

/-- Sort a point list by duration, as the source's `.sort((a,b) => a.t - b.t)`. -/
def sortByT (l : List (ℝ × ℝ)) : List (ℝ × ℝ) :=
  l.insertionSort (fun p q => p.1 ≤ q.1)

/-- Step 1 of `ratioLoadForT`: aggregate valid points sharing a duration by
mean load and sort by duration. -/
def aggPoints (pts : List (ℝ × ℝ)) : List (ℝ × ℝ) :=
  sortByT (((validFilter pts).foldl (fun acc p => addPt p.1 p.2 acc) []).map
    (fun q => (q.1, q.2.1 / q.2.2)))

/-- A PAVA stack block `{tSum, wSum, L}`. -/
structure Blk where
  tSum : ℝ
  wSum : ℝ
  L : ℝ

/-- Merging two adjacent PAVA blocks into one weighted-mean block. -/
def mergeBlk (a b : Blk) : Blk :=
  ⟨a.tSum + b.tSum, a.wSum + b.wSum, (a.L * a.wSum + b.L * b.wSum) / (a.wSum + b.wSum)⟩

/-- Push a block onto the PAVA stack (head is the top), merging while the
block below has a strictly smaller mean load. -/
def pavaPush (b : Blk) : List Blk → List Blk
  | [] => [b]
  | a :: rest => if a.L < b.L then pavaPush (mergeBlk a b) rest else b :: a :: rest

/-- Step 2 of `ratioLoadForT`: run PAVA over the aggregated points. -/
def pavaStack (arr : List (ℝ × ℝ)) : List Blk :=
  arr.foldl (fun s p => pavaPush ⟨p.1, 1, p.2⟩ s) []

/-- The pooled point list: expand the final blocks back to
`(block-average duration, block mean load)` pairs, sorted by duration. -/
def pooled (pts : List (ℝ × ℝ)) : List (ℝ × ℝ) :=
  sortByT (((pavaStack (aggPoints pts)).reverse).map (fun b => (b.tSum / b.wSum, b.L)))

/-- Step 4 of `ratioLoadForT`: walk the pooled list for the first bracketing
pair and interpolate in log-load space; past the end return the last load. -/
def interpInterior (targetT : ℝ) : List (ℝ × ℝ) → ℝ
  | a :: b :: rest =>
      if a.1 ≤ targetT ∧ targetT ≤ b.1 then
        Real.exp ((1 - (targetT - a.1) / max eps (b.1 - a.1)) * Real.log (max eps a.2) +
          ((targetT - a.1) / max eps (b.1 - a.1)) * Real.log (max eps b.2))
      else interpInterior targetT (b :: rest)
  | [a] => a.2
  | [] => 0

/-- Steps 3-4 of `ratioLoadForT` on an already pooled list: flat edge
clamps, then interior log-interpolation. -/
def ratioEval (targetT : ℝ) : List (ℝ × ℝ) → ℝ
  | [] => 0
  | a :: tl =>
    if targetT ≤ a.1 then a.2
    else if ((a :: tl).getLastD (0, 0)).1 ≤ targetT then ((a :: tl).getLastD (0, 0)).2
    else interpInterior targetT (a :: tl)

/-- `ratioLoadForT(targetT, pts)`: the full robust ratio interpolation of the
source (returns `0` when no valid points survive aggregation). -/
def ratioLoadForT (targetT : ℝ) (pts : List (ℝ × ℝ)) : ℝ :=
  ratioEval targetT (pooled pts)

/-! ### Scale estimator and planner -/

/-- The accumulation loop of `scaleFromHistory`: running
`(sum of load/denominator, count)` over points whose denominator exceeds
`eps`. -/
def scaleAccum (w : Weights) (tau : Taus) (pts : List (ℝ × ℝ)) : ℝ × ℝ :=
  pts.foldl
    (fun acc p =>
      if eps < fAt p.1 w tau then (acc.1 + p.2 / fAt p.1 w tau, acc.2 + 1) else acc)
    (0, 0)

/-- `scaleFromHistory(pts, w, tau, manualScale)`. -/
def scaleFromHistory (pts : List (ℝ × ℝ)) (w : Weights) (tau : Taus)
    (manualScale : ℝ) : ℝ :=
  if 0 < manualScale then manualScale
  else
    if (scaleAccum w tau pts).2 = 0 then 0
    else (scaleAccum w tau pts).1 / (scaleAccum w tau pts).2

/-- `modelLoadForT(T, pts, w, tau, manualScale) = scale * fAt(T)`. -/
def modelLoadForT (T : ℝ) (pts : List (ℝ × ℝ)) (w : Weights) (tau : Taus)
    (manualScale : ℝ) : ℝ :=
  scaleFromHistory pts w tau manualScale * fAt T w tau

/-- First-set base load according to the anchor policy in `planSets`
(`'ratio'`, `'model'`, anything else is the conservative min; a zero ratio
estimate means "no estimate" and falls back to the model estimate). -/
def baseOf (scale0 TUT : ℝ) (pts : List (ℝ × ℝ)) (w : Weights) (tau : Taus)
    (anchor : String) : ℝ :=
  if anchor = "ratio" then
    (if ratioLoadForT TUT pts = 0 then scale0 * fAt TUT w tau else ratioLoadForT TUT pts)
  else if anchor = "model" then scale0 * fAt TUT w tau
  else
    (if ratioLoadForT TUT pts = 0 then scale0 * fAt TUT w tau
     else min (scale0 * fAt TUT w tau) (ratioLoadForT TUT pts))

/-- The per-rep capacity update of the simulation loop: fatigue during the
set, recovery of the lost fraction during rest, clamped to `[0.1, 1.0]`. -/
def stepCap (TUT restSec : ℝ) (w : Weights) (tau : Taus) (C : ℝ) : ℝ :=
  clamp (C * fAt TUT w tau + (1 - C * fAt TUT w tau) * recoveryFrac restSec tau) 0.1 1.0

/-- The simulation loop of `planSets`: one prescribed load per iteration
(`max 0` applied as in the source), capacity updated by `stepCap`. -/
def planLoop (scale0 base TUT restSec : ℝ) (w : Weights) (tau : Taus)
    (precise : Bool) : ℕ → ℝ → List ℝ
  | 0, _ => []
  | n + 1, C =>
      max 0 (if precise then scale0 * C * fAt TUT w tau else base * C) ::
        planLoop scale0 base TUT restSec w tau precise n (stepCap TUT restSec w tau C)

/-- The post-processing cap of `planSets`: for `i > 0`,
`load_i = min(load_i, load_0 * (1 + capDrop))`. -/
def applyCap (out : List ℝ) (capDrop : ℝ) : List ℝ :=
  match out with
  | [] => []
  | first :: rest => first :: rest.map (fun x => min x (first * (1 + capDrop)))

/-- `planSets({TUT, sets, restSec, pts, w, tau, manualScale, capDrop,
precise, anchor})`: all-zero sequence when the estimated scale is not
positive, otherwise the capped capacity simulation. -/
def planSets (TUT : ℝ) (sets : ℕ) (restSec : ℝ) (pts : List (ℝ × ℝ))
    (w : Weights) (tau : Taus) (manualScale capDrop : ℝ) (precise : Bool)
    (anchor : String) : List ℝ :=
  if scaleFromHistory pts w tau manualScale ≤ 0 then List.replicate sets 0
  else
    applyCap
      (planLoop (scaleFromHistory pts w tau manualScale)
        (baseOf (scaleFromHistory pts w tau manualScale) TUT pts w tau anchor)
        TUT restSec w tau precise sets 1.0)
      capDrop

/-! ### Basic curve lemmas -/

lemma eps_pos : (0 : ℝ) < eps := by norm_num [eps]

lemma denom_pos (x : ℝ) : (0 : ℝ) < max 1e-9 x :=
  lt_of_lt_of_le (by norm_num) (le_max_left _ _)

lemma le_clamp (x lo hi : ℝ) : lo ≤ clamp x lo hi := le_max_left _ _

lemma clamp_le (x lo hi : ℝ) (h : lo ≤ hi) : clamp x lo hi ≤ hi :=
  max_le h (min_le_left _ _)

lemma clamp_le_of_le (x lo hi c : ℝ) (hlo : lo ≤ c) (hx : x ≤ c) :
    clamp x lo hi ≤ c :=
  max_le hlo (le_trans (min_le_right _ _) hx)

lemma exp_term_le (c x : ℝ) (hc : 0 ≤ c) (hx : x ≤ 0) : c * Real.exp x ≤ c := by
  calc c * Real.exp x ≤ c * Real.exp 0 :=
        mul_le_mul_of_nonneg_left (Real.exp_le_exp.mpr hx) hc
    _ = c := by rw [Real.exp_zero, mul_one]

lemma fAt_nonneg (t : ℝ) (w : Weights) (tau : Taus)
    (h1 : 0 ≤ w.w1) (h2 : 0 ≤ w.w2) (h3 : 0 ≤ w.w3) : 0 ≤ fAt t w tau := by
  have hs := (denom_pos (w.w1 + w.w2 + w.w3)).le
  unfold fAt normalizeWeights
  have e1 := (Real.exp_pos (-t / max 1e-9 tau.t1)).le
  have e2 := (Real.exp_pos (-t / max 1e-9 tau.t2)).le
  have e3 := (Real.exp_pos (-t / max 1e-9 tau.t3)).le
  have := mul_nonneg (div_nonneg h1 hs) e1
  have := mul_nonneg (div_nonneg h2 hs) e2
  have := mul_nonneg (div_nonneg h3 hs) e3
  dsimp only
  linarith

lemma fAt_le_one (t : ℝ) (w : Weights) (tau : Taus)
    (h1 : 0 ≤ w.w1) (h2 : 0 ≤ w.w2) (h3 : 0 ≤ w.w3) (ht : 0 ≤ t) :
    fAt t w tau ≤ 1 := by
  have hs := denom_pos (w.w1 + w.w2 + w.w3)
  have hexp : ∀ m : ℝ, -t / max 1e-9 m ≤ 0 := fun m =>
    div_nonpos_iff.mpr (Or.inr ⟨neg_nonpos.mpr ht, (denom_pos m).le⟩)
  unfold fAt normalizeWeights
  dsimp only
  have b1 := exp_term_le (w.w1 / max 1e-9 (w.w1 + w.w2 + w.w3)) _
    (div_nonneg h1 hs.le) (hexp tau.t1)
  have b2 := exp_term_le (w.w2 / max 1e-9 (w.w1 + w.w2 + w.w3)) _
    (div_nonneg h2 hs.le) (hexp tau.t2)
  have b3 := exp_term_le (w.w3 / max 1e-9 (w.w1 + w.w2 + w.w3)) _
    (div_nonneg h3 hs.le) (hexp tau.t3)
  have hsum : w.w1 / max 1e-9 (w.w1 + w.w2 + w.w3) +
      w.w2 / max 1e-9 (w.w1 + w.w2 + w.w3) +
      w.w3 / max 1e-9 (w.w1 + w.w2 + w.w3) ≤ 1 := by
    rw [div_add_div_same, div_add_div_same, div_le_one hs]
    exact le_max_right _ _
  linarith

lemma fAt_zero (w : Weights) (tau : Taus)
    (hsum : eps ≤ w.w1 + w.w2 + w.w3) : fAt 0 w tau = 1 := by
  have hsum' : (1e-9 : ℝ) ≤ w.w1 + w.w2 + w.w3 := by
    simpa [eps] using hsum
  have hpos : (0 : ℝ) < w.w1 + w.w2 + w.w3 := lt_of_lt_of_le (by norm_num) hsum'
  unfold fAt normalizeWeights
  simp only [neg_zero, zero_div, Real.exp_zero, mul_one, max_eq_right hsum',
    div_add_div_same]
  exact div_self hpos.ne'

lemma weight_pos_cases (w : Weights)
    (h1 : 0 ≤ w.w1) (h2 : 0 ≤ w.w2) (h3 : 0 ≤ w.w3)
    (hsum : eps ≤ w.w1 + w.w2 + w.w3) :
    0 < w.w1 ∨ 0 < w.w2 ∨ 0 < w.w3 := by
  by_contra h
  push_neg at h
  have := eps_pos
  have : w.w1 = 0 := le_antisymm (h.1) h1
  have : w.w2 = 0 := le_antisymm (h.2.1) h2
  have : w.w3 = 0 := le_antisymm (h.2.2) h3
  simp only [eps] at hsum
  linarith

lemma fAt_pos (t : ℝ) (w : Weights) (tau : Taus)
    (h1 : 0 ≤ w.w1) (h2 : 0 ≤ w.w2) (h3 : 0 ≤ w.w3)
    (hsum : eps ≤ w.w1 + w.w2 + w.w3) : 0 < fAt t w tau := by
  have hs := denom_pos (w.w1 + w.w2 + w.w3)
  unfold fAt normalizeWeights
  dsimp only
  have e1 := Real.exp_pos (-t / max 1e-9 tau.t1)
  have e2 := Real.exp_pos (-t / max 1e-9 tau.t2)
  have e3 := Real.exp_pos (-t / max 1e-9 tau.t3)
  have n1 := mul_nonneg (div_nonneg h1 hs.le) e1.le
  have n2 := mul_nonneg (div_nonneg h2 hs.le) e2.le
  have n3 := mul_nonneg (div_nonneg h3 hs.le) e3.le
  rcases weight_pos_cases w h1 h2 h3 hsum with hp | hp | hp
  · have := mul_pos (div_pos hp hs) e1
    linarith
  · have := mul_pos (div_pos hp hs) e2
    linarith
  · have := mul_pos (div_pos hp hs) e3
    linarith

lemma fAt_strictAnti (w : Weights) (tau : Taus)
    (h1 : 0 ≤ w.w1) (h2 : 0 ≤ w.w2) (h3 : 0 ≤ w.w3)
    (hsum : eps ≤ w.w1 + w.w2 + w.w3) {t t' : ℝ} (ht : t < t') :
    fAt t' w tau < fAt t w tau := by
  have hs := denom_pos (w.w1 + w.w2 + w.w3)
  have key : ∀ m : ℝ, -t' / max 1e-9 m < -t / max 1e-9 m := fun m =>
    (div_lt_div_iff_of_pos_right (denom_pos m)).mpr (by linarith)
  have weak : ∀ (c m : ℝ), 0 ≤ c →
      c * Real.exp (-t' / max 1e-9 m) ≤ c * Real.exp (-t / max 1e-9 m) := by
    intro c m hc
    exact mul_le_mul_of_nonneg_left (Real.exp_le_exp.mpr (key m).le) hc
  have strict : ∀ (c m : ℝ), 0 < c →
      c * Real.exp (-t' / max 1e-9 m) < c * Real.exp (-t / max 1e-9 m) := by
    intro c m hc
    exact mul_lt_mul_of_pos_left (Real.exp_lt_exp.mpr (key m)) hc
  unfold fAt normalizeWeights
  dsimp only
  rcases weight_pos_cases w h1 h2 h3 hsum with hp | hp | hp
  · have s1 := strict (w.w1 / max 1e-9 (w.w1 + w.w2 + w.w3)) tau.t1 (div_pos hp hs)
    have s2 := weak (w.w2 / max 1e-9 (w.w1 + w.w2 + w.w3)) tau.t2 (div_nonneg h2 hs.le)
    have s3 := weak (w.w3 / max 1e-9 (w.w1 + w.w2 + w.w3)) tau.t3 (div_nonneg h3 hs.le)
    linarith
  · have s1 := weak (w.w1 / max 1e-9 (w.w1 + w.w2 + w.w3)) tau.t1 (div_nonneg h1 hs.le)
    have s2 := strict (w.w2 / max 1e-9 (w.w1 + w.w2 + w.w3)) tau.t2 (div_pos hp hs)
    have s3 := weak (w.w3 / max 1e-9 (w.w1 + w.w2 + w.w3)) tau.t3 (div_nonneg h3 hs.le)
    linarith
  · have s1 := weak (w.w1 / max 1e-9 (w.w1 + w.w2 + w.w3)) tau.t1 (div_nonneg h1 hs.le)
    have s2 := weak (w.w2 / max 1e-9 (w.w1 + w.w2 + w.w3)) tau.t2 (div_nonneg h2 hs.le)
    have s3 := strict (w.w3 / max 1e-9 (w.w1 + w.w2 + w.w3)) tau.t3 (div_pos hp hs)
    linarith

lemma recoveryFrac_zero (tau : Taus) : recoveryFrac 0 tau = 0 := by
  unfold recoveryFrac
  norm_num

/-! ### Claim C9 -/

/-- C9 counterexample: the weights `(1e-10, 0, 0)` are non-negative with one
positive, and the taus `(10, 10, 10)` are positive, yet `fatigue(0) = 1/10`,
not `1`: the normalization floor `max(1e-9, Σw)` kicks in below `1e-9`. -/
theorem c9_counterexample :
    ((0 : ℝ) ≤ 1e-10 ∧ (0 : ℝ) < 1e-10 ∧ (0 : ℝ) < 10) ∧
    fAt 0 ⟨1e-10, 0, 0⟩ ⟨10, 10, 10⟩ ≠ 1 := by
  refine ⟨⟨by norm_num, by norm_num, by norm_num⟩, ?_⟩
  unfold fAt normalizeWeights
  have hmax : max (1e-9 : ℝ) (1e-10 + 0 + 0) = 1e-9 := max_eq_left (by norm_num)
  rw [hmax]
  norm_num

/-- C9 (amended): whenever the weights are non-negative and their sum is at
least the `1e-9` normalization floor and the taus are positive,
`fatigue(0) = 1` exactly, `fatigue(t) ∈ (0, 1]` for `t ≥ 0`, and `fatigue`
is strictly decreasing in `t`. -/
theorem c9_fatigue_curve (w : Weights) (tau : Taus)
    (h1 : 0 ≤ w.w1) (h2 : 0 ≤ w.w2) (h3 : 0 ≤ w.w3)
    (hsum : eps ≤ w.w1 + w.w2 + w.w3)
    (ht1 : 0 < tau.t1) (ht2 : 0 < tau.t2) (ht3 : 0 < tau.t3) :
    fAt 0 w tau = 1 ∧
    (∀ t : ℝ, 0 ≤ t → 0 < fAt t w tau ∧ fAt t w tau ≤ 1) ∧
    (∀ t t' : ℝ, 0 ≤ t → t < t' → fAt t' w tau < fAt t w tau) :=
  ⟨fAt_zero w tau hsum,
   fun t ht => ⟨fAt_pos t w tau h1 h2 h3 hsum, fAt_le_one t w tau h1 h2 h3 ht⟩,
   fun _ _ _ ht' => fAt_strictAnti w tau h1 h2 h3 hsum ht'⟩

/-- C9 witness: the amended theorem applied to the source's default
parameters `w = (1,1,1)`, `tau = (10, 60, 240)`. -/
theorem c9_witness :
    fAt 0 ⟨1, 1, 1⟩ ⟨10, 60, 240⟩ = 1 ∧
    (∀ t : ℝ, 0 ≤ t →
      0 < fAt t ⟨1, 1, 1⟩ ⟨10, 60, 240⟩ ∧ fAt t ⟨1, 1, 1⟩ ⟨10, 60, 240⟩ ≤ 1) ∧
    (∀ t t' : ℝ, 0 ≤ t → t < t' →
      fAt t' ⟨1, 1, 1⟩ ⟨10, 60, 240⟩ < fAt t ⟨1, 1, 1⟩ ⟨10, 60, 240⟩) :=
  c9_fatigue_curve ⟨1, 1, 1⟩ ⟨10, 60, 240⟩ (by norm_num) (by norm_num)
    (by norm_num) (by norm_num [eps]) (by norm_num) (by norm_num) (by norm_num)

/-! ### Numeric bounds for concrete curve evaluations -/

lemma exp_two_lt_big : Real.exp 2 < 1e9 := by
  have h := Real.exp_one_lt_d9
  have h0 := Real.exp_pos 1
  have h2 : Real.exp 2 = Real.exp 1 * Real.exp 1 := by
    rw [← Real.exp_add]; norm_num
  nlinarith

lemma eps_lt_exp_neg_two : eps < Real.exp (-2) := by
  have h := exp_two_lt_big
  have h0 := Real.exp_pos 2
  rw [eps, Real.exp_neg, inv_eq_one_div, lt_div_iff h0]
  nlinarith

lemma exp_neg_big_le_eps : Real.exp (-(2e10)) ≤ eps := by
  have h := Real.add_one_le_exp (2e10 : ℝ)
  have h0 := Real.exp_pos (2e10 : ℝ)
  rw [eps, Real.exp_neg, inv_eq_one_div, div_le_iff h0]
  nlinarith

lemma fAt_pow10 : fAt 20 ⟨1, 0, 0⟩ ⟨10, 10, 10⟩ = Real.exp (-2) := by
  norm_num [fAt, normalizeWeights,
    show max (1e-9 : ℝ) (1 + 0 + 0) = 1 by rw [max_eq_right] <;> norm_num,
    show max (1e-9 : ℝ) 10 = 10 from max_eq_right (by norm_num)]

lemma fAt_tiny_tau : fAt 20 ⟨1, 0, 0⟩ ⟨1e-9, 1, 1⟩ = Real.exp (-(2e10)) := by
  norm_num [fAt, normalizeWeights,
    show max (1e-9 : ℝ) (1 + 0 + 0) = 1 by rw [max_eq_right] <;> norm_num,
    show max (1e-9 : ℝ) (1e-9) = 1e-9 from max_self _]

/-! ### Claim C3 -/

/-- The observations whose fatigue denominator exceeds `eps` (the ones the
accumulation loop of `scaleFromHistory` keeps). -/
def goodObs (w : Weights) (tau : Taus) : List (ℝ × ℝ) → List (ℝ × ℝ)
  | [] => []
  | p :: rest =>
      if eps < fAt p.1 w tau then p :: goodObs w tau rest else goodObs w tau rest

lemma scaleAccum_from (w : Weights) (tau : Taus) :
    ∀ (pts : List (ℝ × ℝ)) (acc : ℝ × ℝ),
      pts.foldl
        (fun acc p =>
          if eps < fAt p.1 w tau then (acc.1 + p.2 / fAt p.1 w tau, acc.2 + 1) else acc)
        acc =
      (acc.1 + ((goodObs w tau pts).map (fun p => p.2 / fAt p.1 w tau)).sum,
       acc.2 + (goodObs w tau pts).length) := by
  intro pts
  induction pts with
  | nil => intro acc; simp [goodObs]
  | cons p rest ih =>
      intro acc
      by_cases h : eps < fAt p.1 w tau
      · simp only [List.foldl_cons, goodObs, if_pos h, ih, List.map_cons, List.sum_cons,
          List.length_cons]
        push_cast
        refine Prod.ext ?_ ?_ <;> dsimp <;> ring
      · simp only [List.foldl_cons, goodObs, if_neg h, ih]

lemma scaleAccum_eq (w : Weights) (tau : Taus) (pts : List (ℝ × ℝ)) :
    scaleAccum w tau pts =
      (((goodObs w tau pts).map (fun p => p.2 / fAt p.1 w tau)).sum,
       ((goodObs w tau pts).length : ℝ)) := by
  unfold scaleAccum
  rw [scaleAccum_from]
  simp

/-- C3 (amended): the scale estimator returns the manual override whenever it
is positive; otherwise it returns the arithmetic mean of
`load / fatigue(duration)` over exactly the observations whose fatigue
denominator exceeds `eps` (and `0` when there is no such observation); and on
the single observation `(20, 100)` it returns `100 / fatigue(20)` whenever
`fatigue(20)` itself exceeds `eps`. -/
theorem c3_scale_estimator :
    (∀ (pts : List (ℝ × ℝ)) (w : Weights) (tau : Taus) (m : ℝ),
      0 < m → scaleFromHistory pts w tau m = m) ∧
    (∀ (pts : List (ℝ × ℝ)) (w : Weights) (tau : Taus) (m : ℝ), m ≤ 0 →
      scaleFromHistory pts w tau m =
        if goodObs w tau pts = [] then 0
        else ((goodObs w tau pts).map (fun p => p.2 / fAt p.1 w tau)).sum /
          (goodObs w tau pts).length) ∧
    (∀ (w : Weights) (tau : Taus), eps < fAt 20 w tau →
      scaleFromHistory [(20, 100)] w tau 0 = 100 / fAt 20 w tau) := by
  refine ⟨fun pts w tau m hm => by simp [scaleFromHistory, hm], ?_, ?_⟩
  · intro pts w tau m hm
    rw [scaleFromHistory, if_neg (not_lt.mpr hm), scaleAccum_eq]
    by_cases h : goodObs w tau pts = []
    · simp [h]
    · have hlen : (goodObs w tau pts).length ≠ 0 := fun hc => h (List.eq_nil_of_length_eq_zero hc)
      have hlen' : ((goodObs w tau pts).length : ℝ) ≠ 0 := Nat.cast_ne_zero.mpr hlen
      simp [h, hlen']
  · intro w tau h
    have hf : (0 : ℝ) < fAt 20 w tau := lt_trans eps_pos h
    rw [scaleFromHistory, if_neg (by norm_num), scaleAccum_eq]
    simp [goodObs, if_pos h]

/-- C3 counterexample: with weights `(1, 0, 0)` (non-negative, one positive)
and positive taus `(1e-9, 1, 1)`, `fatigue(20) = exp(-2e10) ≤ eps`, so the
single observation `(20, 100)` is excluded and the estimator returns `0`,
not the nonzero `100 / fatigue(20)` the claim promises. -/
theorem c3_counterexample :
    scaleFromHistory [(20, 100)] ⟨1, 0, 0⟩ ⟨1e-9, 1, 1⟩ 0 = 0 ∧
    100 / fAt 20 ⟨1, 0, 0⟩ ⟨1e-9, 1, 1⟩ ≠ 0 := by
  have hle : ¬ (eps < fAt 20 ⟨1, 0, 0⟩ ⟨1e-9, 1, 1⟩) := by
    rw [fAt_tiny_tau]; exact not_lt.mpr exp_neg_big_le_eps
  constructor
  · rw [scaleFromHistory, if_neg (by norm_num), scaleAccum_eq]
    simp [goodObs, if_neg hle]
  · rw [fAt_tiny_tau]
    exact div_ne_zero (by norm_num) (Real.exp_pos _).ne'

/-- C3 witness: with weights `(1, 0, 0)` and taus `(10, 10, 10)`,
`fatigue(20) = exp(-2) > eps`, and the estimator on the single observation
`(20, 100)` indeed returns `100 / fatigue(20)`. -/
theorem c3_witness :
    eps < fAt 20 ⟨1, 0, 0⟩ ⟨10, 10, 10⟩ ∧
    scaleFromHistory [(20, 100)] ⟨1, 0, 0⟩ ⟨10, 10, 10⟩ 0 =
      100 / fAt 20 ⟨1, 0, 0⟩ ⟨10, 10, 10⟩ :=
  have h : eps < fAt 20 ⟨1, 0, 0⟩ ⟨10, 10, 10⟩ := by
    rw [fAt_pow10]; exact eps_lt_exp_neg_two
  ⟨h, c3_scale_estimator.2.2 ⟨1, 0, 0⟩ ⟨10, 10, 10⟩ h⟩

/-! ### Planner list lemmas -/

lemma planLoop_length (scale0 base TUT restSec : ℝ) (w : Weights) (tau : Taus)
    (precise : Bool) : ∀ (n : ℕ) (C : ℝ),
    (planLoop scale0 base TUT restSec w tau precise n C).length = n := by
  intro n
  induction n with
  | zero => intro C; rfl
  | succ k ih => intro C; simp [planLoop, ih]

lemma applyCap_length (l : List ℝ) (c : ℝ) : (applyCap l c).length = l.length := by
  cases l with
  | nil => rfl
  | cons first rest => simp [applyCap]

/-- C2: for any `capDropFraction = c ≥ 0`, every load after the first one in
a `planSets` result is at most `load_0 * (1 + c)`, for every anchor policy,
precise flag, rest and history. -/
theorem c2_cap_enforcement (TUT : ℝ) (sets : ℕ) (restSec : ℝ)
    (pts : List (ℝ × ℝ)) (w : Weights) (tau : Taus) (m c : ℝ) (precise : Bool)
    (anchor : String) (hc : 0 ≤ c) :
    ∀ x ∈ (planSets TUT sets restSec pts w tau m c precise anchor).tail,
      x ≤ (planSets TUT sets restSec pts w tau m c precise anchor).headI * (1 + c) := by
  unfold planSets
  by_cases h : scaleFromHistory pts w tau m ≤ 0
  · rw [if_pos h]
    cases sets with
    | zero => simp
    | succ n =>
        intro x hx
        rw [List.replicate_succ] at hx ⊢
        have hx' : x ∈ List.replicate n (0 : ℝ) := by simpa using hx
        have := List.eq_of_mem_replicate hx'
        simp [this]
  · rw [if_neg h]
    cases hpl : planLoop (scaleFromHistory pts w tau m)
        (baseOf (scaleFromHistory pts w tau m) TUT pts w tau anchor)
        TUT restSec w tau precise sets 1.0 with
    | nil => simp [applyCap]
    | cons first rest =>
        intro x hx
        simp only [applyCap, List.tail_cons, List.headI_cons] at hx ⊢
        obtain ⟨y, _, rfl⟩ := List.mem_map.mp hx
        exact min_le_right _ _

/-- C2 witness: the cap theorem applied at a concrete request with
`capDropFraction = 0.15`. -/
theorem c2_witness :
    (0 : ℝ) ≤ 0.15 ∧
    ∀ x ∈ (planSets 60 3 90 [(20, 100)] ⟨1, 0, 0⟩ ⟨10, 10, 10⟩ 1 0.15 false "min").tail,
      x ≤ (planSets 60 3 90 [(20, 100)] ⟨1, 0, 0⟩ ⟨10, 10, 10⟩ 1 0.15 false "min").headI *
        (1 + 0.15) :=
  ⟨by norm_num,
   c2_cap_enforcement 60 3 90 [(20, 100)] ⟨1, 0, 0⟩ ⟨10, 10, 10⟩ 1 0.15 false "min"
     (by norm_num)⟩

/-! ### Claim C7 -/

/-- Capacity read at the start of rep `n` of a plan: `1.0` when fresh, then
updated by the per-rep transition `stepCap`. -/
def capSeq (TUT restSec : ℝ) (w : Weights) (tau : Taus) : ℕ → ℝ
  | 0 => 1.0
  | n + 1 => stepCap TUT restSec w tau (capSeq TUT restSec w tau n)

lemma stepCap_bounds (TUT restSec : ℝ) (w : Weights) (tau : Taus) (C : ℝ) :
    0.1 ≤ stepCap TUT restSec w tau C ∧ stepCap TUT restSec w tau C ≤ 1 := by
  unfold stepCap clamp
  exact ⟨le_max_left _ _, max_le (by norm_num) (le_trans (min_le_left _ _) (by norm_num))⟩

/-- C7: the capacity is initialized to `1.0`, the per-rep transition maps
`[0.1, 1.0]` into itself, hence the capacity read at the start of every rep
lies in `[0.1, 1.0]`; and the planner's loop indeed steps capacities with
this transition. -/
theorem c7_capacity_invariant (TUT restSec : ℝ) (w : Weights) (tau : Taus) :
    capSeq TUT restSec w tau 0 = 1 ∧
    (∀ C : ℝ, 0.1 ≤ C → C ≤ 1 →
      0.1 ≤ stepCap TUT restSec w tau C ∧ stepCap TUT restSec w tau C ≤ 1) ∧
    (∀ n : ℕ, 0.1 ≤ capSeq TUT restSec w tau n ∧ capSeq TUT restSec w tau n ≤ 1) ∧
    (∀ (scale0 base : ℝ) (precise : Bool) (n : ℕ) (C : ℝ),
      planLoop scale0 base TUT restSec w tau precise (n + 1) C =
        max 0 (if precise then scale0 * C * fAt TUT w tau else base * C) ::
          planLoop scale0 base TUT restSec w tau precise n (stepCap TUT restSec w tau C)) := by
  refine ⟨by norm_num [capSeq], fun C _ _ => stepCap_bounds TUT restSec w tau C, ?_, ?_⟩
  · intro n
    induction n with
    | zero => norm_num [capSeq]
    | succ k _ => exact stepCap_bounds TUT restSec w tau _
  · intro scale0 base precise n C
    rfl

/-- C7 witness: the transition applied to the concrete capacity `0.5` of a
concrete plan stays inside `[0.1, 1.0]`. -/
theorem c7_witness :
    (0.1 : ℝ) ≤ 0.5 ∧ (0.5 : ℝ) ≤ 1 ∧
    (0.1 ≤ stepCap 60 90 ⟨1, 1, 1⟩ ⟨10, 60, 240⟩ 0.5 ∧
      stepCap 60 90 ⟨1, 1, 1⟩ ⟨10, 60, 240⟩ 0.5 ≤ 1) :=
  ⟨by norm_num, by norm_num,
   (c7_capacity_invariant 60 90 ⟨1, 1, 1⟩ ⟨10, 60, 240⟩).2.1 0.5 (by norm_num) (by norm_num)⟩

/-! ### Claim C10 -/

lemma validFilter_eq_nil (pts : List (ℝ × ℝ))
    (h : ∀ p ∈ pts, ¬(0 < p.1 ∧ 0 < p.2)) : validFilter pts = [] := by
  induction pts with
  | nil => rfl
  | cons p rest ih =>
      rw [validFilter, if_neg (h p (by simp))]
      exact ih fun q hq => h q (by simp [hq])

lemma goodObs_eq_nil (w : Weights) (tau : Taus) (pts : List (ℝ × ℝ))
    (h : ∀ p ∈ pts, ¬(eps < fAt p.1 w tau)) : goodObs w tau pts = [] := by
  induction pts with
  | nil => rfl
  | cons p rest ih =>
      rw [goodObs, if_neg (h p (by simp))]
      exact ih fun q hq => h q (by simp [hq])

/-- C10: on degenerate input the core returns sentinels instead of failing:
the ratio estimator returns `0` when no observation is usable, the scale
estimator returns `0` when the override is not positive and no denominator
exceeds `eps`, and `planSets` always returns exactly `sets` loads — the
empty sequence when `sets = 0` and the all-zero sequence when the estimated
scale is not positive. -/
theorem c10_degenerate_inputs :
    (∀ (T : ℝ) (pts : List (ℝ × ℝ)), (∀ p ∈ pts, ¬(0 < p.1 ∧ 0 < p.2)) →
      ratioLoadForT T pts = 0) ∧
    (∀ (pts : List (ℝ × ℝ)) (w : Weights) (tau : Taus) (m : ℝ), m ≤ 0 →
      (∀ p ∈ pts, ¬(eps < fAt p.1 w tau)) → scaleFromHistory pts w tau m = 0) ∧
    (∀ (TUT : ℝ) (sets : ℕ) (restSec : ℝ) (pts : List (ℝ × ℝ)) (w : Weights)
      (tau : Taus) (m c : ℝ) (precise : Bool) (anchor : String),
      (planSets TUT sets restSec pts w tau m c precise anchor).length = sets) ∧
    (∀ (TUT restSec : ℝ) (pts : List (ℝ × ℝ)) (w : Weights) (tau : Taus)
      (m c : ℝ) (precise : Bool) (anchor : String),
      planSets TUT 0 restSec pts w tau m c precise anchor = []) ∧
    (∀ (TUT : ℝ) (sets : ℕ) (restSec : ℝ) (pts : List (ℝ × ℝ)) (w : Weights)
      (tau : Taus) (m c : ℝ) (precise : Bool) (anchor : String),
      scaleFromHistory pts w tau m ≤ 0 →
      planSets TUT sets restSec pts w tau m c precise anchor =
        List.replicate sets 0) := by
  have hlen : ∀ (TUT : ℝ) (sets : ℕ) (restSec : ℝ) (pts : List (ℝ × ℝ)) (w : Weights)
      (tau : Taus) (m c : ℝ) (precise : Bool) (anchor : String),
      (planSets TUT sets restSec pts w tau m c precise anchor).length = sets := by
    intro TUT sets restSec pts w tau m c precise anchor
    unfold planSets
    by_cases h : scaleFromHistory pts w tau m ≤ 0
    · rw [if_pos h, List.length_replicate]
    · rw [if_neg h, applyCap_length, planLoop_length]
  refine ⟨?_, ?_, hlen, ?_, ?_⟩
  · intro T pts h
    rw [ratioLoadForT, pooled, aggPoints, validFilter_eq_nil pts h]
    rfl
  · intro pts w tau m hm h
    rw [scaleFromHistory, if_neg (not_lt.mpr hm), scaleAccum_eq, goodObs_eq_nil w tau pts h]
    simp
  · intro TUT restSec pts w tau m c precise anchor
    have := hlen TUT 0 restSec pts w tau m c precise anchor
    exact List.eq_nil_of_length_eq_zero this
  · intro TUT sets restSec pts w tau m c precise anchor h
    rw [planSets, if_pos h]

/-- C10 witness: the degenerate-input theorem applied to a concrete invalid
observation list, a non-positive override, and a concrete plan request. -/
theorem c10_witness :
    ratioLoadForT 60 [(0, 5)] = 0 ∧
    scaleFromHistory [] ⟨1, 1, 1⟩ ⟨10, 60, 240⟩ 0 = 0 ∧
    (planSets 60 3 90 [] ⟨1, 1, 1⟩ ⟨10, 60, 240⟩ 0 0.15 false "min").length = 3 :=
  ⟨c10_degenerate_inputs.1 60 [(0, 5)] (by norm_num),
   c10_degenerate_inputs.2.1 [] ⟨1, 1, 1⟩ ⟨10, 60, 240⟩ 0 le_rfl (by simp),
   c10_degenerate_inputs.2.2.1 60 3 90 [] ⟨1, 1, 1⟩ ⟨10, 60, 240⟩ 0 0.15 false "min"⟩

/-! ### PAVA stack invariants -/

/-- The block average duration `tSum / wSum`. -/
def Blk.avg (b : Blk) : ℝ := b.tSum / b.wSum

lemma mediant_le (ta wa tb wb : ℝ) (hwa : 0 < wa) (hwb : 0 < wb)
    (h : ta / wa ≤ tb / wb) :
    ta / wa ≤ (ta + tb) / (wa + wb) ∧ (ta + tb) / (wa + wb) ≤ tb / wb := by
  rw [div_le_div_iff hwa hwb] at h
  constructor
  · rw [div_le_div_iff hwa (by linarith)]
    nlinarith
  · rw [div_le_div_iff (by linarith) hwb]
    nlinarith

lemma mergeBlk_L_ge (c : ℝ) (a b : Blk) (ha : c ≤ a.L) (hb : c ≤ b.L)
    (hwa : 0 < a.wSum) (hwb : 0 < b.wSum) : c ≤ (mergeBlk a b).L := by
  unfold mergeBlk
  dsimp only
  rw [le_div_iff (by linarith)]
  nlinarith

lemma mergeBlk_avg (a b : Blk) (hwa : 0 < a.wSum) (hwb : 0 < b.wSum)
    (h : a.avg ≤ b.avg) : a.avg ≤ (mergeBlk a b).avg ∧ (mergeBlk a b).avg ≤ b.avg := by
  unfold Blk.avg at h ⊢
  unfold mergeBlk
  dsimp only
  exact mediant_le a.tSum a.wSum b.tSum b.wSum hwa hwb h

/-- Invariant of the PAVA stack (head is the top block): mean loads are
non-decreasing from top to bottom, block-average durations are
non-increasing from top to bottom, all block weights are positive, and all
block mean loads are at least `c`. -/
def StackInv (c : ℝ) (s : List Blk) : Prop :=
  List.Chain' (fun x y => x.L ≤ y.L) s ∧
  List.Chain' (fun x y => y.avg ≤ x.avg) s ∧
  (∀ b ∈ s, 0 < b.wSum) ∧ (∀ b ∈ s, c ≤ b.L)

lemma stackInv_nil (c : ℝ) : StackInv c [] :=
  ⟨List.chain'_nil, List.chain'_nil, by simp, by simp⟩

lemma pavaPush_inv (c : ℝ) : ∀ (s : List Blk) (b : Blk),
    StackInv c s → 0 < b.wSum → c ≤ b.L →
    (∀ a, s.head? = some a → a.avg ≤ b.avg) →
    StackInv c (pavaPush b s) ∧
      (∀ r, (pavaPush b s).head? = some r → r.avg ≤ b.avg) ∧ pavaPush b s ≠ [] := by
  intro s
  induction s with
  | nil =>
      intro b _ hw hL _
      refine ⟨⟨?_, ?_, ?_, ?_⟩, ?_, ?_⟩ <;> simp [pavaPush, hw, hL]
  | cons a rest ih =>
      intro b hs hw hL hhead
      have hab : a.avg ≤ b.avg := hhead a rfl
      obtain ⟨hC1, hC2, hC3, hC4⟩ := hs
      have hwa : 0 < a.wSum := hC3 a (by simp)
      have hLa : c ≤ a.L := hC4 a (by simp)
      rw [pavaPush]
      by_cases hmerge : a.L < b.L
      · rw [if_pos hmerge]
        have hrest : StackInv c rest :=
          ⟨hC1.tail, hC2.tail, fun x hx => hC3 x (by simp [hx]),
           fun x hx => hC4 x (by simp [hx])⟩
        have hmw : 0 < (mergeBlk a b).wSum := by
          unfold mergeBlk; dsimp only; linarith
        have hmL : c ≤ (mergeBlk a b).L := mergeBlk_L_ge c a b hLa hL hwa hw
        have hmavg := mergeBlk_avg a b hwa hw hab
        have hmhead : ∀ a', rest.head? = some a' → a'.avg ≤ (mergeBlk a b).avg := by
          intro a' ha'
          have : a'.avg ≤ a.avg := by
            cases rest with
            | nil => simp at ha'
            | cons x xs =>
                have := List.chain'_cons.mp hC2
                cases ha'
                exact this.1
          exact le_trans this hmavg.1
        obtain ⟨h1, h2, h3⟩ := ih (mergeBlk a b) hrest hmw hmL hmhead
        exact ⟨h1, fun r hr => le_trans (h2 r hr) hmavg.2, h3⟩
      · rw [if_neg hmerge]
        refine ⟨⟨?_, ?_, ?_, ?_⟩, ?_, ?_⟩
        · exact List.chain'_cons.mpr ⟨not_lt.mp hmerge, hC1⟩
        · exact List.chain'_cons.mpr ⟨hab, hC2⟩
        · intro x hx
          rcases List.mem_cons.mp hx with h | h
          · exact h ▸ hw
          · exact hC3 x h
        · intro x hx
          rcases List.mem_cons.mp hx with h | h
          · exact h ▸ hL
          · exact hC4 x h
        · intro r hr
          cases hr
          exact le_refl _
        · simp

lemma pavaStack_fold_inv (c : ℝ) : ∀ (l : List (ℝ × ℝ)) (s : List Blk),
    List.Pairwise (fun p q : ℝ × ℝ => p.1 ≤ q.1) l → (∀ p ∈ l, c ≤ p.2) →
    StackInv c s →
    (∀ a, s.head? = some a → ∀ p ∈ l, a.avg ≤ p.1) →
    StackInv c (l.foldl (fun s p => pavaPush ⟨p.1, 1, p.2⟩ s) s) := by
  intro l
  induction l with
  | nil => intro s _ _ hs _; exact hs
  | cons p rest ih =>
      intro s hsort hload hs hhead
      rw [List.foldl_cons]
      have hpair := List.pairwise_cons.mp hsort
      have havg : (⟨p.1, 1, p.2⟩ : Blk).avg = p.1 := by
        unfold Blk.avg; exact div_one p.1
      obtain ⟨hs', hhead', _⟩ :=
        pavaPush_inv c s ⟨p.1, 1, p.2⟩ hs (by norm_num)
          (hload p (by simp)) (fun a ha => by rw [havg]; exact hhead a ha p (by simp))
      refine ih _ hpair.2 (fun q hq => hload q (by simp [hq])) hs' ?_
      intro a ha q hq
      exact le_trans (by simpa [havg] using hhead' a ha) (hpair.1 q hq)

instance : IsTotal (ℝ × ℝ) (fun p q : ℝ × ℝ => p.1 ≤ q.1) :=
  ⟨fun a b => le_total a.1 b.1⟩

instance : IsTrans (ℝ × ℝ) (fun p q : ℝ × ℝ => p.1 ≤ q.1) :=
  ⟨fun _ _ _ h1 h2 => le_trans h1 h2⟩

lemma sortByT_sorted (l : List (ℝ × ℝ)) :
    List.Sorted (fun p q : ℝ × ℝ => p.1 ≤ q.1) (sortByT l) :=
  List.sorted_insertionSort _ l

lemma sortByT_mem {p : ℝ × ℝ} {l : List (ℝ × ℝ)} : p ∈ sortByT l ↔ p ∈ l :=
  (List.perm_insertionSort _ l).mem_iff

lemma aggPoints_sorted (pts : List (ℝ × ℝ)) :
    List.Pairwise (fun p q : ℝ × ℝ => p.1 ≤ q.1) (aggPoints pts) :=
  sortByT_sorted _

lemma pavaStack_inv (c : ℝ) (arr : List (ℝ × ℝ))
    (hsort : List.Pairwise (fun p q : ℝ × ℝ => p.1 ≤ q.1) arr)
    (hload : ∀ p ∈ arr, c ≤ p.2) : StackInv c (pavaStack arr) :=
  pavaStack_fold_inv c arr [] hsort hload (stackInv_nil c) (by simp)

/-! ### Aggregated load bounds -/

lemma addPt_entries (c t L : ℝ) (hL : c ≤ L) : ∀ (acc : List (ℝ × ℝ × ℝ)),
    (∀ e ∈ acc, 0 < e.2.2 ∧ c * e.2.2 ≤ e.2.1) →
    ∀ e ∈ addPt t L acc, 0 < e.2.2 ∧ c * e.2.2 ≤ e.2.1 := by
  intro acc
  induction acc with
  | nil =>
      intro _ e he
      rw [addPt] at he
      rcases List.mem_singleton.mp he with rfl
      exact ⟨by norm_num, by dsimp only; linarith⟩
  | cons q rest ih =>
      intro hacc e he
      rw [addPt] at he
      by_cases hq : t = q.1
      · rw [if_pos hq] at he
        rcases List.mem_cons.mp he with rfl | h
        · have := hacc q (by simp)
          dsimp only at this ⊢
          exact ⟨by linarith [this.1], by nlinarith [this.1, this.2]⟩
        · exact hacc e (by simp [h])
      · rw [if_neg hq] at he
        rcases List.mem_cons.mp he with rfl | h
        · exact hacc e (by simp)
        · exact ih (fun x hx => hacc x (by simp [hx])) e h

lemma collect_entries (c : ℝ) : ∀ (l : List (ℝ × ℝ)) (acc : List (ℝ × ℝ × ℝ)),
    (∀ p ∈ l, c ≤ p.2) → (∀ e ∈ acc, 0 < e.2.2 ∧ c * e.2.2 ≤ e.2.1) →
    ∀ e ∈ l.foldl (fun acc p => addPt p.1 p.2 acc) acc, 0 < e.2.2 ∧ c * e.2.2 ≤ e.2.1 := by
  intro l
  induction l with
  | nil => intro acc _ hacc; exact hacc
  | cons p rest ih =>
      intro acc hl hacc
      rw [List.foldl_cons]
      exact ih _ (fun q hq => hl q (by simp [hq]))
        (addPt_entries c p.1 p.2 (hl p (by simp)) acc hacc)

lemma validFilter_mem : ∀ (pts : List (ℝ × ℝ)) (p : ℝ × ℝ),
    p ∈ validFilter pts → p ∈ pts ∧ 0 < p.1 ∧ 0 < p.2 := by
  intro pts
  induction pts with
  | nil => intro p hp; cases hp
  | cons q rest ih =>
      intro p hp
      rw [validFilter] at hp
      by_cases hc : 0 < q.1 ∧ 0 < q.2
      · rw [if_pos hc] at hp
        rcases List.mem_cons.mp hp with rfl | h
        · exact ⟨by simp, hc⟩
        · obtain ⟨h1, h2⟩ := ih p h
          exact ⟨by simp [h1], h2⟩
      · rw [if_neg hc] at hp
        obtain ⟨h1, h2⟩ := ih p hp
        exact ⟨by simp [h1], h2⟩

lemma aggPoints_load_ge (c : ℝ) (pts : List (ℝ × ℝ))
    (hc : ∀ p ∈ pts, 0 < p.1 → 0 < p.2 → c ≤ p.2) :
    ∀ q ∈ aggPoints pts, c ≤ q.2 := by
  intro q hq
  rw [aggPoints, sortByT_mem] at hq
  obtain ⟨e, he, rfl⟩ := List.mem_map.mp hq
  have hvf : ∀ p ∈ validFilter pts, c ≤ p.2 := by
    intro p hp
    obtain ⟨h1, h2, h3⟩ := validFilter_mem pts p hp
    exact hc p h1 h2 h3
  have := collect_entries c (validFilter pts) [] hvf (by simp) e he
  dsimp only
  rw [le_div_iff this.1]
  exact this.2

/-! ### Pooled list properties -/

lemma pooled_eq_map (pts : List (ℝ × ℝ)) :
    pooled pts =
      (pavaStack (aggPoints pts)).reverse.map (fun b => (b.tSum / b.wSum, b.L)) := by
  rw [pooled]
  apply List.Sorted.insertionSort_eq
  have hinv : StackInv 0 (pavaStack (aggPoints pts)) := by
    refine pavaStack_inv 0 _ (aggPoints_sorted pts) ?_
    intro p hp
    rw [aggPoints, sortByT_mem] at hp
    obtain ⟨e, he, rfl⟩ := List.mem_map.mp hp
    have hvf : ∀ p ∈ validFilter pts, (0 : ℝ) ≤ p.2 := fun p hp =>
      (validFilter_mem pts p hp).2.2.le
    have := collect_entries 0 (validFilter pts) [] hvf (by simp) e he
    dsimp only
    rw [le_div_iff this.1]
    simpa using this.2
  have h2 : List.Chain' (fun x y : Blk => x.avg ≤ y.avg)
      (pavaStack (aggPoints pts)).reverse := by
    rw [List.chain'_reverse]
    exact hinv.2.1
  have h3 : List.Chain' (fun p q : ℝ × ℝ => p.1 ≤ q.1)
      ((pavaStack (aggPoints pts)).reverse.map (fun b => (b.tSum / b.wSum, b.L))) := by
    rw [List.chain'_map]
    exact h2
  exact List.chain'_iff_pairwise.mp h3

lemma pooled_chain_and_ge (c : ℝ) (pts : List (ℝ × ℝ))
    (hc : ∀ p ∈ pts, 0 < p.1 → 0 < p.2 → c ≤ p.2) :
    List.Chain' (fun p q : ℝ × ℝ => q.2 ≤ p.2) (pooled pts) ∧
    ∀ p ∈ pooled pts, c ≤ p.2 := by
  have hinv : StackInv c (pavaStack (aggPoints pts)) :=
    pavaStack_inv c _ (aggPoints_sorted pts) (aggPoints_load_ge c pts hc)
  rw [pooled_eq_map]
  constructor
  · rw [List.chain'_map]
    rw [List.chain'_reverse]
    exact hinv.1
  · intro p hp
    obtain ⟨b, hb, rfl⟩ := List.mem_map.mp hp
    exact hinv.2.2.2 b (List.mem_reverse.mp hb)

/-! ### Interpolation lemmas -/

lemma getLastD_indep : ∀ (l : List (ℝ × ℝ)) (b d d' : ℝ × ℝ),
    (b :: l).getLastD d = (b :: l).getLastD d' := by
  intro l
  induction l with
  | nil => intro b d d'; simp
  | cons c m _ =>
      intro b d d'
      have h1 : (b :: c :: m).getLastD d = (c :: m).getLastD b := by simp [List.getLastD]
      have h2 : (b :: c :: m).getLastD d' = (c :: m).getLastD b := by simp [List.getLastD]
      rw [h1, h2]

lemma getLastD_mem : ∀ (l : List (ℝ × ℝ)) (b d : ℝ × ℝ),
    (b :: l).getLastD d ∈ b :: l := by
  intro l
  induction l with
  | nil => intro b d; simp
  | cons c m ih =>
      intro b d
      have h1 : (b :: c :: m).getLastD d = (c :: m).getLastD b := by simp [List.getLastD]
      rw [h1]
      exact List.mem_cons_of_mem b (ih c b)

lemma getLastD_cons_cons (b c : ℝ × ℝ) (m : List (ℝ × ℝ)) (d : ℝ × ℝ) :
    (b :: c :: m).getLastD d = (c :: m).getLastD d := by
  have h1 : (b :: c :: m).getLastD d = (c :: m).getLastD b := by simp [List.getLastD]
  rw [h1, getLastD_indep]

lemma chain_head_ge_last : ∀ (tl : List (ℝ × ℝ)) (a d : ℝ × ℝ),
    List.Chain' (fun p q : ℝ × ℝ => q.2 ≤ p.2) (a :: tl) →
    ((a :: tl).getLastD d).2 ≤ a.2 := by
  intro tl
  induction tl with
  | nil => intro a d _; simp
  | cons b rest ih =>
      intro a d hchain
      rw [getLastD_cons_cons]
      have h := List.chain'_cons.mp hchain
      exact le_trans (ih b d h.2) h.1

lemma bracket_r_bounds {a b T : ℝ} (h1 : a ≤ T) (h2 : T ≤ b) :
    0 ≤ (T - a) / max eps (b - a) ∧ (T - a) / max eps (b - a) ≤ 1 := by
  have hd : (0 : ℝ) < max eps (b - a) := lt_of_lt_of_le eps_pos (le_max_left _ _)
  exact ⟨div_nonneg (by linarith) hd.le,
    (div_le_one hd).mpr (le_trans (by linarith) (le_max_right _ _))⟩

lemma interp_le_head (T : ℝ) : ∀ (tl : List (ℝ × ℝ)) (a : ℝ × ℝ),
    List.Chain' (fun p q : ℝ × ℝ => q.2 ≤ p.2) (a :: tl) →
    (∀ p ∈ a :: tl, eps ≤ p.2) →
    interpInterior T (a :: tl) ≤ a.2 := by
  intro tl
  induction tl with
  | nil => intro a _ _; rw [interpInterior]
  | cons b rest ih =>
      intro a hchain hload
      have hchain' := List.chain'_cons.mp hchain
      have hpa : 0 < a.2 := lt_of_lt_of_le eps_pos (hload a (by simp))
      have hpb : 0 < b.2 := lt_of_lt_of_le eps_pos (hload b (by simp))
      rw [interpInterior]
      by_cases hbr : a.1 ≤ T ∧ T ≤ b.1
      · rw [if_pos hbr]
        obtain ⟨hr0, hr1⟩ := bracket_r_bounds hbr.1 hbr.2
        rw [max_eq_right (hload a (by simp)), max_eq_right (hload b (by simp))]
        have hlog : Real.log b.2 ≤ Real.log a.2 := Real.log_le_log hpb hchain'.1
        calc Real.exp ((1 - (T - a.1) / max eps (b.1 - a.1)) * Real.log a.2 +
              (T - a.1) / max eps (b.1 - a.1) * Real.log b.2)
            ≤ Real.exp (Real.log a.2) := by
              apply Real.exp_le_exp.mpr
              nlinarith [mul_nonneg hr0 (sub_nonneg.mpr hlog)]
          _ = a.2 := Real.exp_log hpa
      · rw [if_neg hbr]
        exact le_trans
          (ih b hchain'.2 (fun p hp => hload p (List.mem_cons_of_mem a hp)))
          hchain'.1

lemma interp_ge_last (T : ℝ) : ∀ (tl : List (ℝ × ℝ)) (a : ℝ × ℝ),
    List.Chain' (fun p q : ℝ × ℝ => q.2 ≤ p.2) (a :: tl) →
    (∀ p ∈ a :: tl, eps ≤ p.2) →
    ((a :: tl).getLastD (0, 0)).2 ≤ interpInterior T (a :: tl) := by
  intro tl
  induction tl with
  | nil => intro a _ _; rw [interpInterior]; simp
  | cons b rest ih =>
      intro a hchain hload
      have hchain' := List.chain'_cons.mp hchain
      have hpa : 0 < a.2 := lt_of_lt_of_le eps_pos (hload a (by simp))
      have hpb : 0 < b.2 := lt_of_lt_of_le eps_pos (hload b (by simp))
      rw [interpInterior, getLastD_cons_cons]
      by_cases hbr : a.1 ≤ T ∧ T ≤ b.1
      · rw [if_pos hbr]
        obtain ⟨hr0, hr1⟩ := bracket_r_bounds hbr.1 hbr.2
        rw [max_eq_right (hload a (by simp)), max_eq_right (hload b (by simp))]
        have hlog : Real.log b.2 ≤ Real.log a.2 := Real.log_le_log hpb hchain'.1
        have hlast : ((b :: rest).getLastD (0, 0)).2 ≤ b.2 :=
          chain_head_ge_last rest b (0, 0) hchain'.2
        calc ((b :: rest).getLastD (0, 0)).2 ≤ b.2 := hlast
          _ = Real.exp (Real.log b.2) := (Real.exp_log hpb).symm
          _ ≤ Real.exp ((1 - (T - a.1) / max eps (b.1 - a.1)) * Real.log a.2 +
                (T - a.1) / max eps (b.1 - a.1) * Real.log b.2) := by
              apply Real.exp_le_exp.mpr
              nlinarith [mul_nonneg (sub_nonneg.mpr hr1) (sub_nonneg.mpr hlog)]
      · rw [if_neg hbr]
        exact ih b hchain'.2 (fun p hp => hload p (List.mem_cons_of_mem a hp))

lemma interp_mono (T1 T2 : ℝ) (hT : T1 ≤ T2) : ∀ (tl : List (ℝ × ℝ)) (a : ℝ × ℝ),
    List.Chain' (fun p q : ℝ × ℝ => q.2 ≤ p.2) (a :: tl) →
    (∀ p ∈ a :: tl, eps ≤ p.2) → a.1 ≤ T1 →
    interpInterior T2 (a :: tl) ≤ interpInterior T1 (a :: tl) := by
  intro tl
  induction tl with
  | nil => intro a _ _ _; rw [interpInterior, interpInterior]
  | cons b rest ih =>
      intro a hchain hload ha1
      have hchain' := List.chain'_cons.mp hchain
      have hpa : 0 < a.2 := lt_of_lt_of_le eps_pos (hload a (by simp))
      have hpb : 0 < b.2 := lt_of_lt_of_le eps_pos (hload b (by simp))
      have hlog : Real.log b.2 ≤ Real.log a.2 := Real.log_le_log hpb hchain'.1
      have hd : (0 : ℝ) < max eps (b.1 - a.1) := lt_of_lt_of_le eps_pos (le_max_left _ _)
      by_cases h1 : T1 ≤ b.1
      · -- T1 lies in the bracket (a, b)
        have hbr1 : a.1 ≤ T1 ∧ T1 ≤ b.1 := ⟨ha1, h1⟩
        obtain ⟨hr10, hr11⟩ := bracket_r_bounds hbr1.1 hbr1.2
        conv_rhs => rw [interpInterior, if_pos hbr1]
        rw [max_eq_right (hload a (by simp)), max_eq_right (hload b (by simp))]
        by_cases h2 : T2 ≤ b.1
        · -- both in the bracket: the formula is monotone in T
          have hbr2 : a.1 ≤ T2 ∧ T2 ≤ b.1 := ⟨le_trans ha1 hT, h2⟩
          conv_lhs => rw [interpInterior, if_pos hbr2]
          rw [max_eq_right (hload a (by simp)), max_eq_right (hload b (by simp))]
          apply Real.exp_le_exp.mpr
          have hrr : (T1 - a.1) / max eps (b.1 - a.1) ≤ (T2 - a.1) / max eps (b.1 - a.1) :=
            div_le_div_of_nonneg_right (by linarith) hd.le
          nlinarith [mul_nonneg (sub_nonneg.mpr hrr) (sub_nonneg.mpr hlog)]
        · -- T2 beyond the bracket: recurse on the tail, bound through b
          have hbr2 : ¬(a.1 ≤ T2 ∧ T2 ≤ b.1) := fun h => h2 h.2
          conv_lhs => rw [interpInterior, if_neg hbr2]
          have hup : interpInterior T2 (b :: rest) ≤ b.2 :=
            interp_le_head T2 rest b hchain'.2
              (fun p hp => hload p (List.mem_cons_of_mem a hp))
          have hdown : Real.exp (Real.log b.2) ≤
              Real.exp ((1 - (T1 - a.1) / max eps (b.1 - a.1)) * Real.log a.2 +
                (T1 - a.1) / max eps (b.1 - a.1) * Real.log b.2) := by
            apply Real.exp_le_exp.mpr
            nlinarith [mul_nonneg (sub_nonneg.mpr hr11) (sub_nonneg.mpr hlog)]
          rw [Real.exp_log hpb] at hdown
          exact le_trans hup hdown
      · -- T1 (hence T2) beyond the bracket: recurse on both sides
        have hbr1 : ¬(a.1 ≤ T1 ∧ T1 ≤ b.1) := fun h => h1 h.2
        have hbr2 : ¬(a.1 ≤ T2 ∧ T2 ≤ b.1) := fun h => h1 (le_trans hT h.2)
        conv_rhs => rw [interpInterior, if_neg hbr1]
        conv_lhs => rw [interpInterior, if_neg hbr2]
        exact ih b hchain'.2 (fun p hp => hload p (List.mem_cons_of_mem a hp))
          (le_of_not_le h1)

lemma ratioEval_mono (arr : List (ℝ × ℝ))
    (hchain : List.Chain' (fun p q : ℝ × ℝ => q.2 ≤ p.2) arr)
    (hload : ∀ p ∈ arr, eps ≤ p.2) (T1 T2 : ℝ) (hT : T1 ≤ T2) :
    ratioEval T2 arr ≤ ratioEval T1 arr := by
  cases arr with
  | nil => rw [ratioEval, ratioEval]
  | cons a tl =>
      have hlast_le_head : ((a :: tl).getLastD (0, 0)).2 ≤ a.2 :=
        chain_head_ge_last tl a (0, 0) hchain
      rw [ratioEval, ratioEval]
      by_cases e1 : T1 ≤ a.1
      · rw [if_pos e1]
        by_cases e2 : T2 ≤ a.1
        · rw [if_pos e2]
        · rw [if_neg e2]
          by_cases e3 : ((a :: tl).getLastD (0, 0)).1 ≤ T2
          · rw [if_pos e3]
            exact hlast_le_head
          · rw [if_neg e3]
            exact interp_le_head T2 tl a hchain hload
      · rw [if_neg e1]
        have e1' : ¬ T2 ≤ a.1 := fun h => e1 (le_trans hT h)
        rw [if_neg e1']
        by_cases e4 : ((a :: tl).getLastD (0, 0)).1 ≤ T1
        · rw [if_pos e4, if_pos (le_trans e4 hT)]
        · rw [if_neg e4]
          by_cases e5 : ((a :: tl).getLastD (0, 0)).1 ≤ T2
          · rw [if_pos e5]
            exact interp_ge_last T1 tl a hchain hload
          · rw [if_neg e5]
            exact interp_mono T1 T2 hT tl a hchain hload (le_of_not_le e1)

/-! ### Claim C1 -/

/-- C1 (amended): the pooled load sequence is non-increasing for every point
list; and whenever every valid observation's load is at least the `1e-9`
interpolation floor, `T ↦ ratioLoadForT(T, pts)` is non-increasing over the
whole range `T ≥ 0`. -/
theorem c1_ratio_monotone (pts : List (ℝ × ℝ)) :
    List.Chain' (fun p q : ℝ × ℝ => q.2 ≤ p.2) (pooled pts) ∧
    ((∀ p ∈ pts, 0 < p.1 → 0 < p.2 → eps ≤ p.2) →
      ∀ T1 T2 : ℝ, 0 ≤ T1 → T1 ≤ T2 →
        ratioLoadForT T2 pts ≤ ratioLoadForT T1 pts) := by
  refine ⟨(pooled_chain_and_ge 0 pts (fun p _ _ h2 => h2.le)).1, ?_⟩
  intro hbig
  obtain ⟨hchain, hload⟩ := pooled_chain_and_ge eps pts hbig
  exact fun T1 T2 _ hT => ratioEval_mono (pooled pts) hchain hload T1 T2 hT

/-- C1 counterexample: on the list `[(1, 1e-12), (2, 1e-12)]` (all loads
positive but below the `1e-9` floor) the ratio estimate at `T = 1` is
`1e-12`, yet at `T = 3/2` the interpolation floors both loads to `1e-9`, so
the function strictly increases: the claimed monotonicity for every list
fails. -/
theorem c1_counterexample :
    (0 : ℝ) ≤ 1 ∧ (1 : ℝ) ≤ 3 / 2 ∧
    ratioLoadForT 1 [(1, 1e-12), (2, 1e-12)] <
      ratioLoadForT (3 / 2) [(1, 1e-12), (2, 1e-12)] := by
  have h1 : ratioLoadForT 1 [(1, 1e-12), (2, 1e-12)] = 1e-12 := by
    norm_num [ratioLoadForT, pooled, aggPoints, validFilter, pavaStack, sortByT, addPt,
      pavaPush, List.insertionSort, List.orderedInsert, ratioEval, interpInterior, eps]
  have h2 : ratioLoadForT (3 / 2) [(1, 1e-12), (2, 1e-12)] = 1e-9 := by
    norm_num [ratioLoadForT, pooled, aggPoints, validFilter, pavaStack, sortByT, addPt,
      pavaPush, List.insertionSort, List.orderedInsert, ratioEval, interpInterior, eps,
      show max (1e-9 : ℝ) 1 = 1 from max_eq_right (by norm_num),
      show max (1e-9 : ℝ) 1e-12 = 1e-9 from max_eq_left (by norm_num)]
    rw [← add_mul]
    norm_num [Real.exp_log]
  rw [h1, h2]
  norm_num

/-- C1 witness: the amended theorem applied to the spec's monotonicity-repair
input `[(20, 80), (60, 95), (180, 40)]` (which has a violation at 60). -/
theorem c1_witness :
    List.Chain' (fun p q : ℝ × ℝ => q.2 ≤ p.2)
      (pooled [(20, 80), (60, 95), (180, 40)]) ∧
    ∀ T1 T2 : ℝ, 0 ≤ T1 → T1 ≤ T2 →
      ratioLoadForT T2 [(20, 80), (60, 95), (180, 40)] ≤
        ratioLoadForT T1 [(20, 80), (60, 95), (180, 40)] := by
  have h : ∀ p ∈ [((20 : ℝ), (80 : ℝ)), (60, 95), (180, 40)],
      0 < p.1 → 0 < p.2 → eps ≤ p.2 := by
    intro p hp
    fin_cases hp <;> norm_num [eps]
  exact ⟨(c1_ratio_monotone [(20, 80), (60, 95), (180, 40)]).1,
    (c1_ratio_monotone [(20, 80), (60, 95), (180, 40)]).2 h⟩

/-! ### PAVA is the identity on already non-increasing inputs -/

lemma pavaStack_noMerge : ∀ (l : List (ℝ × ℝ)) (s : List Blk),
    List.Chain' (fun p q : ℝ × ℝ => q.2 ≤ p.2) l →
    (∀ a, s.head? = some a → ∀ p, l.head? = some p → p.2 ≤ a.L) →
    l.foldl (fun s p => pavaPush ⟨p.1, 1, p.2⟩ s) s =
      (l.map (fun p => (⟨p.1, 1, p.2⟩ : Blk))).reverse ++ s := by
  intro l
  induction l with
  | nil => intro s _ _; simp
  | cons p rest ih =>
      intro s hchain hhead
      have hpush : pavaPush ⟨p.1, 1, p.2⟩ s = ⟨p.1, 1, p.2⟩ :: s := by
        cases s with
        | nil => rfl
        | cons a s' =>
            rw [pavaPush, if_neg]
            exact not_lt.mpr (hhead a rfl p rfl)
      rw [List.foldl_cons, hpush,
        ih (⟨p.1, 1, p.2⟩ :: s) (List.chain'_cons'.mp hchain).2 ?_]
      · simp
      · intro a ha q hq
        cases ha
        cases rest with
        | nil => cases hq
        | cons b m =>
            cases hq
            exact (List.chain'_cons.mp hchain).1

lemma pooled_of_antitone (pts : List (ℝ × ℝ))
    (hd : List.Chain' (fun p q : ℝ × ℝ => q.2 ≤ p.2) (aggPoints pts)) :
    pooled pts = aggPoints pts := by
  rw [pooled_eq_map, pavaStack, pavaStack_noMerge (aggPoints pts) [] hd (by simp)]
  rw [List.append_nil, List.reverse_reverse, List.map_map]
  have hfun : ((fun b : Blk => (b.tSum / b.wSum, b.L)) ∘
      fun p : ℝ × ℝ => (⟨p.1, 1, p.2⟩ : Blk)) = id := by
    funext p
    simp [Function.comp]
  rw [hfun, List.map_id]

/-! ### Gap-chain helpers -/

/-- Consecutive durations increase by at least `eps` along the list. -/
def GapChain (l : List (ℝ × ℝ)) : Prop :=
  List.Chain' (fun p q : ℝ × ℝ => p.1 + eps ≤ q.1) l

lemma gapChain_head_lt : ∀ (l : List (ℝ × ℝ)) (x : ℝ × ℝ),
    GapChain (x :: l) → ∀ p ∈ l, x.1 + eps ≤ p.1 := by
  intro l
  induction l with
  | nil => intro x _ p hp; cases hp
  | cons b rest ih =>
      intro x hgap p hp
      have h := List.chain'_cons.mp hgap
      rcases List.mem_cons.mp hp with rfl | hp'
      · exact h.1
      · have := ih b h.2 p hp'
        have he := eps_pos
        linarith [h.1]

lemma gapChain_pairwise_lt (l : List (ℝ × ℝ)) (hgap : GapChain l) :
    List.Pairwise (fun x y : ℝ × ℝ => x.1 < y.1) l := by
  induction l with
  | nil => exact List.Pairwise.nil
  | cons x rest ih =>
      refine List.pairwise_cons.mpr ⟨?_, ih (List.chain'_cons'.mp hgap).2⟩
      intro q hq
      have := gapChain_head_lt rest x hgap q hq
      have he := eps_pos
      linarith

lemma pairwise_lt_eq_of_fst_eq : ∀ (l : List (ℝ × ℝ)),
    List.Pairwise (fun x y : ℝ × ℝ => x.1 < y.1) l →
    ∀ p ∈ l, ∀ q ∈ l, p.1 = q.1 → p = q := by
  intro l
  induction l with
  | nil => intro _ p hp; cases hp
  | cons x rest ih =>
      intro hpair p hp q hq heq
      have h := List.pairwise_cons.mp hpair
      rcases List.mem_cons.mp hp with rfl | hp' <;>
        rcases List.mem_cons.mp hq with rfl | hq'
      · rfl
      · exact absurd heq (ne_of_lt (h.1 q hq'))
      · exact absurd heq.symm (ne_of_lt (h.1 p hp'))
      · exact ih h.2 p hp' q hq' heq

lemma gapChain_le_last : ∀ (tl : List (ℝ × ℝ)) (a d : ℝ × ℝ),
    GapChain (a :: tl) → ∀ p ∈ a :: tl, p.1 ≤ ((a :: tl).getLastD d).1 := by
  intro tl
  induction tl with
  | nil =>
      intro a d _ p hp
      rcases List.mem_singleton.mp hp with rfl
      simp
  | cons b rest ih =>
      intro a d hgap p hp
      rw [getLastD_cons_cons]
      have h := List.chain'_cons.mp hgap
      have he := eps_pos
      rcases List.mem_cons.mp hp with rfl | hp'
      · have := ih b d h.2 b (by simp)
        linarith [h.1]
      · exact ih b d h.2 p hp'

/-! ### Exact evaluation lemmas for the ratio estimator -/

lemma interp_at_anchor : ∀ (tl : List (ℝ × ℝ)) (a : ℝ × ℝ),
    GapChain (a :: tl) → (∀ p ∈ a :: tl, eps ≤ p.2) →
    ∀ p ∈ tl, interpInterior p.1 (a :: tl) = p.2 := by
  intro tl
  induction tl with
  | nil => intro a _ _ p hp; cases hp
  | cons b rest ih =>
      intro a hgap hload p hp
      have hgap' := List.chain'_cons.mp hgap
      have hpb : 0 < b.2 := lt_of_lt_of_le eps_pos (hload b (by simp))
      have he := eps_pos
      rcases List.mem_cons.mp hp with heq | hp'
      · rw [heq]
        rw [interpInterior, if_pos ⟨by linarith [hgap'.1], le_refl _⟩]
        have hgapge : eps ≤ b.1 - a.1 := by linarith [hgap'.1]
        rw [max_eq_right hgapge, div_self (by linarith : b.1 - a.1 ≠ 0),
          max_eq_right (hload b (by simp))]
        norm_num [Real.exp_log hpb]
      · have hbp : b.1 + eps ≤ p.1 := gapChain_head_lt rest b hgap'.2 p hp'
        have hcond : ¬(a.1 ≤ p.1 ∧ p.1 ≤ b.1) := fun h => by linarith [h.2]
        rw [interpInterior, if_neg hcond]
        exact ih b hgap'.2 (fun q hq => hload q (List.mem_cons_of_mem a hq)) p hp'

lemma ratioEval_low (T : ℝ) (a : ℝ × ℝ) (tl : List (ℝ × ℝ)) (h : T ≤ a.1) :
    ratioEval T (a :: tl) = a.2 := by
  rw [ratioEval, if_pos h]

lemma ratioEval_high (T : ℝ) (a : ℝ × ℝ) (tl : List (ℝ × ℝ))
    (hgap : GapChain (a :: tl)) (h : ((a :: tl).getLastD (0, 0)).1 ≤ T) :
    ratioEval T (a :: tl) = ((a :: tl).getLastD (0, 0)).2 := by
  rw [ratioEval]
  by_cases h1 : T ≤ a.1
  · rw [if_pos h1]
    have hle := gapChain_le_last tl a (0, 0) hgap a (by simp)
    have heq : ((a :: tl).getLastD (0, 0)).1 = a.1 := le_antisymm (le_trans h h1) hle
    have hlast := pairwise_lt_eq_of_fst_eq (a :: tl) (gapChain_pairwise_lt _ hgap)
      ((a :: tl).getLastD (0, 0)) (getLastD_mem tl a (0, 0)) a (by simp) heq
    rw [hlast]
  · rw [if_neg h1, if_pos h]

lemma ratioEval_mem (a : ℝ × ℝ) (tl : List (ℝ × ℝ))
    (hgap : GapChain (a :: tl)) (hload : ∀ p ∈ a :: tl, eps ≤ p.2) :
    ∀ p ∈ a :: tl, ratioEval p.1 (a :: tl) = p.2 := by
  intro p hp
  rcases List.mem_cons.mp hp with rfl | hp'
  · exact ratioEval_low _ _ _ le_rfl
  · have hap : a.1 + eps ≤ p.1 := gapChain_head_lt tl a hgap p hp'
    have he := eps_pos
    rw [ratioEval, if_neg (by intro hcon; linarith)]
    by_cases hl : ((a :: tl).getLastD (0, 0)).1 ≤ p.1
    · rw [if_pos hl]
      have hple := gapChain_le_last tl a (0, 0) hgap p hp
      have heq : ((a :: tl).getLastD (0, 0)).1 = p.1 := le_antisymm hl hple
      have hlast := pairwise_lt_eq_of_fst_eq (a :: tl) (gapChain_pairwise_lt _ hgap)
        ((a :: tl).getLastD (0, 0)) (getLastD_mem tl a (0, 0)) p hp heq
      rw [hlast]
    · rw [if_neg hl]
      exact interp_at_anchor tl a hgap hload p hp'

lemma interp_bracket : ∀ (pre : List (ℝ × ℝ)) (pa pb : ℝ × ℝ)
    (post : List (ℝ × ℝ)) (T : ℝ),
    GapChain (pre ++ pa :: pb :: post) →
    (∀ p ∈ pre ++ pa :: pb :: post, eps ≤ p.2) →
    pa.1 < T → T ≤ pb.1 →
    interpInterior T (pre ++ pa :: pb :: post) =
      Real.exp ((1 - (T - pa.1) / (pb.1 - pa.1)) * Real.log pa.2 +
        (T - pa.1) / (pb.1 - pa.1) * Real.log pb.2) := by
  intro pre
  induction pre with
  | nil =>
      intro pa pb post T hgap hload h1 h2
      rw [List.nil_append] at hgap hload ⊢
      have hg := (List.chain'_cons.mp hgap).1
      have hgapge : eps ≤ pb.1 - pa.1 := by linarith
      rw [interpInterior, if_pos ⟨h1.le, h2⟩, max_eq_right hgapge,
        max_eq_right (hload pa (by simp)), max_eq_right (hload pb (by simp))]
  | cons q pre' ih =>
      intro pa pb post T hgap hload h1 h2
      have hpa_mem : pa ∈ pre' ++ pa :: pb :: post := by simp
      obtain ⟨y, ys, hys⟩ : ∃ y ys, pre' ++ pa :: pb :: post = y :: ys := by
        cases pre' with
        | nil => exact ⟨pa, pb :: post, rfl⟩
        | cons z zs => exact ⟨z, zs ++ pa :: pb :: post, rfl⟩
      have hchain_tail : GapChain (pre' ++ pa :: pb :: post) :=
        (List.chain'_cons'.mp hgap).2
      have hy_le : y.1 ≤ pa.1 := by
        rw [hys] at hpa_mem hchain_tail
        rcases List.mem_cons.mp hpa_mem with rfl | hpm
        · exact le_refl _
        · have := gapChain_head_lt ys y hchain_tail pa hpm
          have he := eps_pos
          linarith
      have hcond : ¬(q.1 ≤ T ∧ T ≤ y.1) := fun hcon =>
        absurd hcon.2 (not_le.mpr (lt_of_le_of_lt hy_le h1))
      have hstep : interpInterior T ((q :: pre') ++ pa :: pb :: post) =
          interpInterior T (pre' ++ pa :: pb :: post) := by
        rw [List.cons_append, hys, interpInterior, if_neg hcond]
      rw [hstep]
      exact ih pa pb post T ((List.chain'_cons'.mp hgap).2)
        (fun p hp => hload p (by simp [hp])) h1 h2

lemma ratioEval_bracket (pre : List (ℝ × ℝ)) (pa pb : ℝ × ℝ)
    (post : List (ℝ × ℝ)) (T : ℝ)
    (hgap : GapChain (pre ++ pa :: pb :: post))
    (hload : ∀ p ∈ pre ++ pa :: pb :: post, eps ≤ p.2)
    (h1 : pa.1 ≤ T) (h2 : T ≤ pb.1) :
    ratioEval T (pre ++ pa :: pb :: post) =
      Real.exp ((1 - (T - pa.1) / (pb.1 - pa.1)) * Real.log pa.2 +
        (T - pa.1) / (pb.1 - pa.1) * Real.log pb.2) := by
  obtain ⟨y, ys, hys⟩ : ∃ y ys, pre ++ pa :: pb :: post = y :: ys := by
    cases pre with
    | nil => exact ⟨pa, pb :: post, rfl⟩
    | cons z zs => exact ⟨z, zs ++ pa :: pb :: post, rfl⟩
  have hgap' : GapChain (y :: ys) := hys ▸ hgap
  have hload' : ∀ p ∈ y :: ys, eps ≤ p.2 := hys ▸ hload
  have hpa_mem : pa ∈ y :: ys := hys ▸ (by simp : pa ∈ pre ++ pa :: pb :: post)
  have hpb_mem : pb ∈ y :: ys := hys ▸ (by simp : pb ∈ pre ++ pa :: pb :: post)
  have hpa_pos : 0 < pa.2 := lt_of_lt_of_le eps_pos (hload pa (by simp))
  have hpb_pos : 0 < pb.2 := lt_of_lt_of_le eps_pos (hload pb (by simp))
  have hgab : pa.1 + eps ≤ pb.1 :=
    (List.chain'_cons.mp (List.Chain'.right_of_append hgap)).1
  have hgpos : 0 < pb.1 - pa.1 := by have := eps_pos; linarith
  by_cases hTa : pa.1 < T
  · rw [hys, ratioEval]
    have hy_le : y.1 ≤ pa.1 := by
      rcases List.mem_cons.mp hpa_mem with h | hpm
      · rw [h]
      · have := gapChain_head_lt ys y hgap' pa hpm
        have he := eps_pos
        linarith
    rw [if_neg (not_le.mpr (lt_of_le_of_lt hy_le hTa))]
    by_cases hl : ((y :: ys).getLastD (0, 0)).1 ≤ T
    · rw [if_pos hl]
      have hpb_le_last : pb.1 ≤ ((y :: ys).getLastD (0, 0)).1 :=
        gapChain_le_last ys y (0, 0) hgap' pb hpb_mem
      have hT_eq : T = pb.1 := le_antisymm h2 (le_trans hpb_le_last hl)
      have hlast_eq : ((y :: ys).getLastD (0, 0)).1 = pb.1 :=
        le_antisymm (le_trans hl hT_eq.le) hpb_le_last
      have hlast := pairwise_lt_eq_of_fst_eq (y :: ys) (gapChain_pairwise_lt _ hgap')
        ((y :: ys).getLastD (0, 0)) (getLastD_mem ys y (0, 0)) pb hpb_mem hlast_eq
      rw [hlast, hT_eq, div_self (ne_of_gt hgpos)]
      norm_num [Real.exp_log hpb_pos]
    · rw [if_neg hl, ← hys]
      exact interp_bracket pre pa pb post T hgap hload hTa h2
  · have hT_eq : T = pa.1 := le_antisymm (not_lt.mp hTa) h1
    subst hT_eq
    rw [hys, ratioEval_mem y ys hgap' hload' pa hpa_mem, sub_self, zero_div]
    norm_num [Real.exp_log hpa_pos]

/-! ### Claim C4 -/

/-- C4 (amended): when the per-duration aggregated loads are strictly
decreasing, consecutive aggregated durations differ by at least the `1e-9`
interpolation floor, and aggregated loads are at least `1e-9`, the PAVA step
is the identity and `ratioLoadForT` is exact at each aggregated duration,
flat beyond either end, and log-linear on each bracket with
`r = (T - t_a) / (t_b - t_a)`; on `[(20,100),(60,70),(180,40)]` the
estimator returns the anchors exactly and `ratioLoad(40)` lies strictly
between `70` and `100`. -/
theorem c4_ratio_interpolation :
    (∀ pts : List (ℝ × ℝ),
      List.Chain' (fun p q : ℝ × ℝ => q.2 < p.2) (aggPoints pts) →
      GapChain (aggPoints pts) →
      (∀ p ∈ aggPoints pts, eps ≤ p.2) →
      pooled pts = aggPoints pts ∧
      (∀ p ∈ aggPoints pts, ratioLoadForT p.1 pts = p.2) ∧
      (∀ (a : ℝ × ℝ) (tl : List (ℝ × ℝ)), aggPoints pts = a :: tl →
        (∀ T : ℝ, T ≤ a.1 → ratioLoadForT T pts = a.2) ∧
        (∀ T : ℝ, ((a :: tl).getLastD (0, 0)).1 ≤ T →
          ratioLoadForT T pts = ((a :: tl).getLastD (0, 0)).2)) ∧
      (∀ (pre : List (ℝ × ℝ)) (pa pb : ℝ × ℝ) (post : List (ℝ × ℝ)) (T : ℝ),
        aggPoints pts = pre ++ pa :: pb :: post → pa.1 ≤ T → T ≤ pb.1 →
        ratioLoadForT T pts =
          Real.exp ((1 - (T - pa.1) / (pb.1 - pa.1)) * Real.log pa.2 +
            (T - pa.1) / (pb.1 - pa.1) * Real.log pb.2))) ∧
    ratioLoadForT 20 [(20, 100), (60, 70), (180, 40)] = 100 ∧
    ratioLoadForT 60 [(20, 100), (60, 70), (180, 40)] = 70 ∧
    ratioLoadForT 180 [(20, 100), (60, 70), (180, 40)] = 40 ∧
    70 < ratioLoadForT 40 [(20, 100), (60, 70), (180, 40)] ∧
    ratioLoadForT 40 [(20, 100), (60, 70), (180, 40)] < 100 := by
  have hv40 : ratioLoadForT 40 [(20, 100), (60, 70), (180, 40)] =
      Real.exp ((1 - 1 / 2) * Real.log 100 + (1 / 2) * Real.log 70) := by
    norm_num [ratioLoadForT, pooled, aggPoints, validFilter, pavaStack, sortByT, addPt,
      pavaPush, List.insertionSort, List.orderedInsert, ratioEval, interpInterior, eps,
      show max (1e-9 : ℝ) 40 = 40 from max_eq_right (by norm_num),
      show max (1e-9 : ℝ) 100 = 100 from max_eq_right (by norm_num),
      show max (1e-9 : ℝ) 70 = 70 from max_eq_right (by norm_num)]
  have hlog : Real.log 70 < Real.log 100 := Real.log_lt_log (by norm_num) (by norm_num)
  refine ⟨?_, ?_, ?_, ?_, ?_, ?_⟩
  · intro pts hdec hgap hload
    have hweak : List.Chain' (fun p q : ℝ × ℝ => q.2 ≤ p.2) (aggPoints pts) :=
      hdec.imp (fun _ _ h => le_of_lt h)
    have hpool : pooled pts = aggPoints pts := pooled_of_antitone pts hweak
    have hrl : ∀ T : ℝ, ratioLoadForT T pts = ratioEval T (aggPoints pts) := fun T => by
      rw [ratioLoadForT, hpool]
    refine ⟨hpool, ?_, ?_, ?_⟩
    · intro p hp
      cases hagg : aggPoints pts with
      | nil => rw [hagg] at hp; cases hp
      | cons a tl =>
          rw [hrl, hagg]
          rw [hagg] at hp hgap hload
          exact ratioEval_mem a tl hgap hload p hp
    · intro a tl hagg
      rw [hagg] at hgap
      exact ⟨fun T hT => by rw [hrl, hagg]; exact ratioEval_low T a tl hT,
        fun T hT => by rw [hrl, hagg]; exact ratioEval_high T a tl hgap hT⟩
    · intro pre pa pb post T hagg h1 h2
      rw [hrl, hagg]
      rw [hagg] at hgap hload
      exact ratioEval_bracket pre pa pb post T hgap hload h1 h2
  · norm_num [ratioLoadForT, pooled, aggPoints, validFilter, pavaStack, sortByT, addPt,
      pavaPush, List.insertionSort, List.orderedInsert, ratioEval]
  · norm_num [ratioLoadForT, pooled, aggPoints, validFilter, pavaStack, sortByT, addPt,
      pavaPush, List.insertionSort, List.orderedInsert, ratioEval, interpInterior, eps,
      show max (1e-9 : ℝ) 40 = 40 from max_eq_right (by norm_num),
      show max (1e-9 : ℝ) 100 = 100 from max_eq_right (by norm_num),
      show max (1e-9 : ℝ) 70 = 70 from max_eq_right (by norm_num), Real.exp_log]
  · norm_num [ratioLoadForT, pooled, aggPoints, validFilter, pavaStack, sortByT, addPt,
      pavaPush, List.insertionSort, List.orderedInsert, ratioEval]
  · rw [hv40]
    calc (70 : ℝ) = Real.exp (Real.log 70) := (Real.exp_log (by norm_num)).symm
      _ < Real.exp ((1 - 1 / 2) * Real.log 100 + (1 / 2) * Real.log 70) := by
          apply Real.exp_lt_exp.mpr
          nlinarith
  · rw [hv40]
    calc Real.exp ((1 - 1 / 2) * Real.log 100 + (1 / 2) * Real.log 70)
        < Real.exp (Real.log 100) := by
          apply Real.exp_lt_exp.mpr
          nlinarith
      _ = 100 := Real.exp_log (by norm_num)

/-- C4 counterexample: on `[(1, 1), (1 + 2e-10, 1/2)]` the aggregated loads
are strictly decreasing, yet for the interior `T = 1 + 1e-10` the code
computes `r = (T - t_a) / max(eps, t_b - t_a) = 1/10` because the duration
gap `2e-10` is below the `1e-9` floor, not the claimed `r = 1/2`. -/
theorem c4_counterexample :
    List.Chain' (fun p q : ℝ × ℝ => q.2 < p.2)
      (aggPoints [(1, 1), (1 + 2e-10, 1 / 2)]) ∧
    ratioLoadForT (1 + 1e-10) [(1, 1), (1 + 2e-10, 1 / 2)] =
      Real.exp ((1 - 1 / 10) * Real.log 1 + (1 / 10) * Real.log (1 / 2)) ∧
    Real.exp ((1 - 1 / 10) * Real.log 1 + (1 / 10) * Real.log (1 / 2)) ≠
      Real.exp ((1 - 1 / 2) * Real.log 1 + (1 / 2) * Real.log (1 / 2)) := by
  refine ⟨?_, ?_, ?_⟩
  · have hagg : aggPoints [((1 : ℝ), (1 : ℝ)), (1 + 2e-10, 1 / 2)] =
        [(1, 1), (1 + 2e-10, 1 / 2)] := by
      norm_num [aggPoints, validFilter, sortByT, addPt, List.insertionSort,
        List.orderedInsert]
    rw [hagg]
    norm_num [List.chain'_cons, List.chain'_singleton]
  · norm_num [ratioLoadForT, pooled, aggPoints, validFilter, pavaStack, sortByT, addPt,
      pavaPush, List.insertionSort, List.orderedInsert, ratioEval, interpInterior, eps,
      show max (1e-9 : ℝ) (1 + 2e-10 - 1) = 1e-9 from max_eq_left (by norm_num),
      show max (1e-9 : ℝ) 1 = 1 from max_eq_right (by norm_num),
      show max (1e-9 : ℝ) (1 / 2) = 1 / 2 from max_eq_right (by norm_num)]
  · have hL : Real.log (1 / 2) < 0 := Real.log_neg (by norm_num) (by norm_num)
    simp only [Real.log_one, mul_zero]
    intro hcontra
    have := Real.exp_injective hcontra
    nlinarith

/-- C4 witness: the amended theorem applied to the spec's strictly
decreasing synthetic points `[(20,100),(60,70),(180,40)]`. -/
theorem c4_witness :
    pooled [(20, 100), (60, 70), (180, 40)] =
      aggPoints [(20, 100), (60, 70), (180, 40)] ∧
    ∀ p ∈ aggPoints [(20, 100), (60, 70), (180, 40)],
      ratioLoadForT p.1 [(20, 100), (60, 70), (180, 40)] = p.2 := by
  have hagg : aggPoints [((20 : ℝ), (100 : ℝ)), (60, 70), (180, 40)] =
      [(20, 100), (60, 70), (180, 40)] := by
    norm_num [aggPoints, validFilter, sortByT, addPt, List.insertionSort,
      List.orderedInsert]
  have hdec : List.Chain' (fun p q : ℝ × ℝ => q.2 < p.2)
      (aggPoints [((20 : ℝ), (100 : ℝ)), (60, 70), (180, 40)]) := by
    rw [hagg]
    norm_num [List.chain'_cons, List.chain'_singleton]
  have hgap : GapChain (aggPoints [((20 : ℝ), (100 : ℝ)), (60, 70), (180, 40)]) := by
    rw [hagg]
    norm_num [GapChain, List.chain'_cons, List.chain'_singleton, eps]
  have hload : ∀ p ∈ aggPoints [((20 : ℝ), (100 : ℝ)), (60, 70), (180, 40)],
      eps ≤ p.2 := by
    rw [hagg]
    intro p hp
    fin_cases hp <;> norm_num [eps]
  obtain ⟨h1, h2, _, _⟩ :=
    c4_ratio_interpolation.1 [(20, 100), (60, 70), (180, 40)] hdec hgap hload
  exact ⟨h1, h2⟩

/-! ### Concrete planner evaluations -/

lemma ratioLoad_single20 : ratioLoadForT 20 [(20, 100)] = 100 := by
  norm_num [ratioLoadForT, pooled, aggPoints, validFilter, pavaStack, sortByT, addPt,
    pavaPush, List.insertionSort, List.orderedInsert, ratioEval]

lemma scale_manual_one : scaleFromHistory [(20, 100)] ⟨1, 0, 0⟩ ⟨10, 10, 10⟩ 1 = 1 := by
  rw [scaleFromHistory, if_pos (by norm_num)]

lemma baseOf_other (scale0 TUT : ℝ) (pts : List (ℝ × ℝ)) (w : Weights) (tau : Taus)
    (anchor : String) (hr : anchor ≠ "ratio") (hm : anchor ≠ "model") :
    baseOf scale0 TUT pts w tau anchor =
      (if ratioLoadForT TUT pts = 0 then scale0 * fAt TUT w tau
       else min (scale0 * fAt TUT w tau) (ratioLoadForT TUT pts)) := by
  rw [baseOf, if_neg hr, if_neg hm]

/-! ### Claim C6 -/

/-- C6 (amended): the planner recognizes only the `"ratio"` and `"model"`
anchor policies; `"average"` (like any other unrecognized string) selects
the conservative-minimum branch, identical to `"min"` — no arithmetic mean
of the two estimates is ever computed. -/
theorem c6_average_is_min (TUT : ℝ) (sets : ℕ) (restSec : ℝ)
    (pts : List (ℝ × ℝ)) (w : Weights) (tau : Taus) (m c : ℝ) (precise : Bool) :
    planSets TUT sets restSec pts w tau m c precise "average" =
    planSets TUT sets restSec pts w tau m c precise "min" := by
  unfold planSets
  rw [baseOf_other _ _ _ _ _ _ (by decide) (by decide),
    baseOf_other _ _ _ _ _ _ (by decide) (by decide)]

/-- C6 counterexample: with manual scale `1`, history `[(20, 100)]`,
`TUT = 20`, one set, and anchor `"average"`, the model estimate is
`exp(-2)` and the ratio estimate `100`; the planner returns `[exp(-2)]`
(the minimum), which is not the claimed arithmetic mean
`(exp(-2) + 100) / 2`. -/
theorem c6_counterexample :
    planSets 20 1 0 [(20, 100)] ⟨1, 0, 0⟩ ⟨10, 10, 10⟩ 1 0.15 false "average" =
      [Real.exp (-2)] ∧
    Real.exp (-2) ≠ (Real.exp (-2) + 100) / 2 := by
  constructor
  · have h1 : Real.exp (-2) ≤ 100 :=
      le_trans (Real.exp_lt_one_iff.mpr (by norm_num)).le (by norm_num)
    rw [planSets, scale_manual_one, if_neg (by norm_num),
      baseOf_other _ _ _ _ _ _ (by decide) (by decide)]
    norm_num [ratioLoad_single20, fAt_pow10, min_eq_left h1]
    rw [planLoop, planLoop, applyCap]
    norm_num [max_eq_right (Real.exp_pos (-2)).le]
  · have h1 : Real.exp (-2) < 1 := Real.exp_lt_one_iff.mpr (by norm_num)
    intro hcontra
    nlinarith

/-! ### Claim C5 -/

lemma interp_nonneg (T : ℝ) : ∀ (tl : List (ℝ × ℝ)) (a : ℝ × ℝ),
    (∀ p ∈ a :: tl, 0 ≤ p.2) → 0 ≤ interpInterior T (a :: tl) := by
  intro tl
  induction tl with
  | nil => intro a h; rw [interpInterior]; exact h a (by simp)
  | cons b rest ih =>
      intro a h
      rw [interpInterior]
      by_cases hbr : a.1 ≤ T ∧ T ≤ b.1
      · rw [if_pos hbr]
        exact (Real.exp_pos _).le
      · rw [if_neg hbr]
        exact ih b (fun p hp => h p (List.mem_cons_of_mem a hp))

lemma ratioEval_nonneg (T : ℝ) (arr : List (ℝ × ℝ))
    (h : ∀ p ∈ arr, 0 ≤ p.2) : 0 ≤ ratioEval T arr := by
  cases arr with
  | nil => rw [ratioEval]
  | cons a tl =>
      rw [ratioEval]
      by_cases h1 : T ≤ a.1
      · rw [if_pos h1]; exact h a (by simp)
      · rw [if_neg h1]
        by_cases h2 : ((a :: tl).getLastD (0, 0)).1 ≤ T
        · rw [if_pos h2]; exact h _ (getLastD_mem tl a (0, 0))
        · rw [if_neg h2]; exact interp_nonneg T tl a h

lemma ratioLoadForT_nonneg (T : ℝ) (pts : List (ℝ × ℝ)) :
    0 ≤ ratioLoadForT T pts := by
  have h := pooled_chain_and_ge 0 pts (fun p _ _ h2 => h2.le)
  rw [ratioLoadForT]
  exact ratioEval_nonneg T (pooled pts) h.2

lemma baseOf_nonneg (scale0 TUT : ℝ) (pts : List (ℝ × ℝ)) (w : Weights) (tau : Taus)
    (anchor : String) (hs : 0 ≤ scale0)
    (hw1 : 0 ≤ w.w1) (hw2 : 0 ≤ w.w2) (hw3 : 0 ≤ w.w3) :
    0 ≤ baseOf scale0 TUT pts w tau anchor := by
  have hm : 0 ≤ scale0 * fAt TUT w tau :=
    mul_nonneg hs (fAt_nonneg TUT w tau hw1 hw2 hw3)
  have hr := ratioLoadForT_nonneg TUT pts
  unfold baseOf
  split_ifs <;> first
    | exact hm
    | exact hr
    | exact le_min hm hr

/-- C5 (amended): with `sets = 1` (one rep) and a positive estimated scale,
the planner returns exactly the singleton `[base]` in the non-precise mode
for every anchor policy; in the precise mode it instead returns
`[scale * fatigue(TUT)]`, which coincides with `base` only when the anchor
policy selects the model estimate. -/
theorem c5_single_set (TUT restSec : ℝ) (pts : List (ℝ × ℝ)) (w : Weights)
    (tau : Taus) (m capDrop : ℝ) (anchor : String)
    (hw1 : 0 ≤ w.w1) (hw2 : 0 ≤ w.w2) (hw3 : 0 ≤ w.w3)
    (hscale : 0 < scaleFromHistory pts w tau m) :
    planSets TUT 1 restSec pts w tau m capDrop false anchor =
      [baseOf (scaleFromHistory pts w tau m) TUT pts w tau anchor] ∧
    planSets TUT 1 restSec pts w tau m capDrop true anchor =
      [scaleFromHistory pts w tau m * fAt TUT w tau] := by
  have hb := baseOf_nonneg (scaleFromHistory pts w tau m) TUT pts w tau anchor
    hscale.le hw1 hw2 hw3
  have hmodel : 0 ≤ scaleFromHistory pts w tau m * fAt TUT w tau :=
    mul_nonneg hscale.le (fAt_nonneg TUT w tau hw1 hw2 hw3)
  constructor
  · rw [planSets, if_neg (not_le.mpr hscale), planLoop, planLoop, applyCap]
    norm_num [max_eq_right hb]
  · rw [planSets, if_neg (not_le.mpr hscale), planLoop, planLoop, applyCap]
    norm_num [max_eq_right hmodel]

/-- C5 counterexample: with manual scale `1`, history `[(20, 100)]`,
`TUT = 20`, anchor `"ratio"` and the precise flag set, the base chosen by
the anchor policy is the ratio estimate `100`, yet `planSets` returns
`[exp(-2)]` (the precise closed form ignores `base`), so the claim that one
set always yields `[base]` for every precise flag fails. -/
theorem c5_counterexample :
    baseOf 1 20 [(20, 100)] ⟨1, 0, 0⟩ ⟨10, 10, 10⟩ "ratio" = 100 ∧
    scaleFromHistory [(20, 100)] ⟨1, 0, 0⟩ ⟨10, 10, 10⟩ 1 = 1 ∧
    planSets 20 1 0 [(20, 100)] ⟨1, 0, 0⟩ ⟨10, 10, 10⟩ 1 0.15 true "ratio" =
      [Real.exp (-2)] ∧
    Real.exp (-2) ≠ 100 := by
  refine ⟨?_, scale_manual_one, ?_, ?_⟩
  · rw [baseOf, if_pos rfl, ratioLoad_single20, if_neg (by norm_num)]
  · rw [planSets, scale_manual_one, if_neg (by norm_num), planLoop, planLoop, applyCap]
    norm_num [fAt_pow10, max_eq_right (Real.exp_pos (-2)).le]
  · have h1 : Real.exp (-2) < 1 := Real.exp_lt_one_iff.mpr (by norm_num)
    intro hcontra
    rw [hcontra] at h1
    norm_num at h1

/-- C5 witness: the amended theorem applied to a concrete plan request with
the `"ratio"` anchor and a positive manual scale. -/
theorem c5_witness :
    planSets 20 1 0 [(20, 100)] ⟨1, 0, 0⟩ ⟨10, 10, 10⟩ 1 0.15 false "ratio" =
      [baseOf (scaleFromHistory [(20, 100)] ⟨1, 0, 0⟩ ⟨10, 10, 10⟩ 1) 20 [(20, 100)]
        ⟨1, 0, 0⟩ ⟨10, 10, 10⟩ "ratio"] ∧
    planSets 20 1 0 [(20, 100)] ⟨1, 0, 0⟩ ⟨10, 10, 10⟩ 1 0.15 true "ratio" =
      [scaleFromHistory [(20, 100)] ⟨1, 0, 0⟩ ⟨10, 10, 10⟩ 1 *
        fAt 20 ⟨1, 0, 0⟩ ⟨10, 10, 10⟩] :=
  c5_single_set 20 0 [(20, 100)] ⟨1, 0, 0⟩ ⟨10, 10, 10⟩ 1 0.15 "ratio"
    (by norm_num) (by norm_num) (by norm_num)
    (by rw [scale_manual_one]; norm_num)

/-! ### Claim C8 -/

lemma chain'_ge_replicate (n : ℕ) :
    List.Chain' (fun x y : ℝ => y ≤ x) (List.replicate n 0) := by
  induction n with
  | zero => exact List.chain'_nil
  | succ k ih =>
      rw [List.replicate_succ]
      refine List.chain'_cons'.mpr ⟨?_, ih⟩
      intro y hy
      cases k with
      | zero => simp at hy
      | succ k' =>
          rw [List.replicate_succ, List.head?_cons] at hy
          simp at hy
          simp [hy]

lemma stepCap_zero_rest_le (TUT : ℝ) (w : Weights) (tau : Taus)
    (hw1 : 0 ≤ w.w1) (hw2 : 0 ≤ w.w2) (hw3 : 0 ≤ w.w3) (hT : 0 ≤ TUT)
    {C : ℝ} (hC : 0.1 ≤ C) : stepCap TUT 0 w tau C ≤ C := by
  have hf0 : 0 ≤ fAt TUT w tau := fAt_nonneg TUT w tau hw1 hw2 hw3
  have hf1 : fAt TUT w tau ≤ 1 := fAt_le_one TUT w tau hw1 hw2 hw3 hT
  unfold stepCap clamp
  rw [recoveryFrac_zero]
  have hCf : C * fAt TUT w tau ≤ C := by nlinarith
  simp only [mul_zero, add_zero]
  exact max_le hC (le_trans (min_le_right _ _) hCf)

lemma planLoop_chain_zero_rest (scale0 base TUT : ℝ) (w : Weights) (tau : Taus)
    (precise : Bool) (hs : 0 ≤ scale0) (hb : 0 ≤ base)
    (hw1 : 0 ≤ w.w1) (hw2 : 0 ≤ w.w2) (hw3 : 0 ≤ w.w3) (hT : 0 ≤ TUT) :
    ∀ (n : ℕ) (C : ℝ), 0.1 ≤ C →
      List.Chain' (fun x y : ℝ => y ≤ x)
        (planLoop scale0 base TUT 0 w tau precise n C) := by
  have hf0 : 0 ≤ fAt TUT w tau := fAt_nonneg TUT w tau hw1 hw2 hw3
  intro n
  induction n with
  | zero => intro C _; rw [planLoop]; exact List.chain'_nil
  | succ k ih =>
      intro C hC
      rw [planLoop]
      refine List.chain'_cons'.mpr ⟨?_, ih _ (stepCap_bounds TUT 0 w tau C).1⟩
      intro y hy
      cases k with
      | zero => rw [planLoop] at hy; simp at hy
      | succ k' =>
          rw [planLoop, List.head?_cons] at hy
          simp only [Option.mem_def, Option.some.injEq] at hy
          rw [← hy]
          have hC' : 0.1 ≤ stepCap TUT 0 w tau C := (stepCap_bounds TUT 0 w tau C).1
          have hle : stepCap TUT 0 w tau C ≤ C :=
            stepCap_zero_rest_le TUT w tau hw1 hw2 hw3 hT hC
          apply max_le_max le_rfl
          cases precise with
          | false =>
              simp only [Bool.false_eq_true, if_false]
              exact mul_le_mul_of_nonneg_left hle hb
          | true =>
              simp only [if_true]
              exact mul_le_mul_of_nonneg_right (mul_le_mul_of_nonneg_left hle hs) hf0

lemma applyCap_chain (l : List ℝ) (c : ℝ)
    (h : List.Chain' (fun x y : ℝ => y ≤ x) l) :
    List.Chain' (fun x y : ℝ => y ≤ x) (applyCap l c) := by
  cases l with
  | nil => exact List.chain'_nil
  | cons first rest =>
      rw [applyCap]
      refine List.chain'_cons'.mpr ⟨?_, ?_⟩
      · intro y hy
        cases rest with
        | nil => simp at hy
        | cons r0 rest' =>
            rw [List.map_cons, List.head?_cons] at hy
            simp only [Option.mem_def, Option.some.injEq] at hy
            rw [← hy]
            exact le_trans (min_le_left _ _) (List.chain'_cons.mp h).1
      · rw [List.chain'_map]
        exact (List.chain'_cons'.mp h).2.imp (fun a b hab => min_le_min hab le_rfl)

/-- C8: with zero rest between reps (`recovery(0) = 0`), the per-rep load
sequence returned by `planSets` is non-increasing, in both the base-scaled
and precise modes, for every anchor policy (given the data-model invariants:
non-negative target duration and weights). -/
theorem c8_monotone_zero_rest (TUT : ℝ) (sets : ℕ) (pts : List (ℝ × ℝ))
    (w : Weights) (tau : Taus) (m capDrop : ℝ) (precise : Bool) (anchor : String)
    (hT : 0 ≤ TUT) (hw1 : 0 ≤ w.w1) (hw2 : 0 ≤ w.w2) (hw3 : 0 ≤ w.w3) :
    recoveryFrac 0 tau = 0 ∧
    List.Chain' (fun x y : ℝ => y ≤ x)
      (planSets TUT sets 0 pts w tau m capDrop precise anchor) := by
  refine ⟨recoveryFrac_zero tau, ?_⟩
  rw [planSets]
  by_cases h : scaleFromHistory pts w tau m ≤ 0
  · rw [if_pos h]
    exact chain'_ge_replicate sets
  · rw [if_neg h]
    apply applyCap_chain
    exact planLoop_chain_zero_rest (scaleFromHistory pts w tau m)
      (baseOf (scaleFromHistory pts w tau m) TUT pts w tau anchor) TUT w tau precise
      (le_of_not_le (fun hc => h hc))
      (baseOf_nonneg _ TUT pts w tau anchor (le_of_not_le (fun hc => h hc))
        hw1 hw2 hw3)
      hw1 hw2 hw3 hT sets 1.0 (by norm_num)

/-- C8 witness: the zero-rest monotonicity theorem applied to a concrete
three-set plan. -/
theorem c8_witness :
    recoveryFrac 0 ⟨10, 60, 240⟩ = 0 ∧
    List.Chain' (fun x y : ℝ => y ≤ x)
      (planSets 60 3 0 [(20, 100)] ⟨1, 1, 1⟩ ⟨10, 60, 240⟩ 0 0.15 false "min") :=
  c8_monotone_zero_rest 60 3 [(20, 100)] ⟨1, 1, 1⟩ ⟨10, 60, 240⟩ 0 0.15 false "min"
    (by norm_num) (by norm_num) (by norm_num) (by norm_num)

end FingerTraining

end
